import Mathlib

/-!
# Verification of the heed polymorphic database layer

A shallow embedding of `src/heed/src/db/polymorph.rs` (the `PolyDatabase`
typed access layer over an LMDB-style ordered byte-string table) together
with models of its external collaborators (the storage engine, the cursor
and the iterator state machines), which the spec describes at their
interface boundary.

Keys and values are byte strings, modelled as `List Nat`.  The engine's
table is a list of `(key, value)` pairs kept in strictly increasing
byte-lexicographic key order (the engine invariant).
-/

namespace Heed

/-- A byte string (a key or a value). -/
abbrev Bytes := List Nat

/-- A raw entry: a `(key, value)` pair of byte strings. -/
abbrev Entry := Bytes × Bytes

/-- The engine-side state of one table: entries in increasing key order. -/
abbrev Table := List Entry

/-- Strict byte-lexicographic order on byte strings (the order LMDB uses on
keys): compare bytes elementwise, a strict prefix is smaller. -/
def blt : Bytes → Bytes → Bool
  | [], [] => false
  | [], _ :: _ => true
  | _ :: _, [] => false
  | a :: as, b :: bs => a < b || (a == b && blt as bs)

/-- The engine invariant: keys strictly increasing in byte-lex order. -/
def SortedTable (t : Table) : Prop :=
  t.Pairwise (fun e e' => blt e.1 e'.1 = true)

instance (t : Table) : Decidable (SortedTable t) := by
  unfold SortedTable
  infer_instance

theorem blt_irrefl (a : Bytes) : blt a a = false := by
  induction a with
  | nil => rfl
  | cons x xs ih => simp [blt, ih]

theorem blt_trans {a b c : Bytes} (hab : blt a b = true) (hbc : blt b c = true) :
    blt a c = true := by
  induction a generalizing b c with
  | nil =>
    cases c with
    | nil =>
      cases b with
      | nil => simp [blt] at hab
      | cons y ys => simp [blt] at hbc
    | cons z zs => simp [blt]
  | cons x xs ih =>
    cases b with
    | nil => simp [blt] at hab
    | cons y ys =>
      cases c with
      | nil => simp [blt] at hbc
      | cons z zs =>
        simp only [blt, Bool.or_eq_true, Bool.and_eq_true, beq_iff_eq,
          decide_eq_true_eq] at hab hbc ⊢
        rcases hab with h1 | ⟨rfl, h1⟩ <;> rcases hbc with h2 | ⟨rfl, h2⟩
        · exact Or.inl (Nat.lt_trans h1 h2)
        · exact Or.inl h1
        · exact Or.inl h2
        · exact Or.inr ⟨rfl, ih h1 h2⟩

theorem blt_asymm {a b : Bytes} (hab : blt a b = true) : blt b a = false := by
  by_contra h
  have hba : blt b a = true := by
    cases hb : blt b a with
    | false => exact absurd hb h
    | true => rfl
  have := blt_trans hab hba
  rw [blt_irrefl] at this
  exact Bool.false_ne_true this

theorem eq_of_not_blt {a b : Bytes} (hab : blt a b = false) (hba : blt b a = false) :
    a = b := by
  induction a generalizing b with
  | nil =>
    cases b with
    | nil => rfl
    | cons y ys => simp [blt] at hab
  | cons x xs ih =>
    cases b with
    | nil => simp [blt] at hba
    | cons y ys =>
      simp only [blt, Bool.or_eq_false_iff, Bool.and_eq_false_iff, beq_iff_eq,
        decide_eq_false_iff_not, Nat.not_lt, beq_eq_false_iff_ne, ne_eq] at hab hba
      obtain ⟨hxy, hab'⟩ := hab
      obtain ⟨hyx, hba'⟩ := hba
      have hxyeq : x = y := Nat.le_antisymm hyx hxy
      subst hxyeq
      rcases hab' with h | h
      · exact absurd rfl h
      · rcases hba' with h' | h'
        · exact absurd rfl h'
        · rw [ih h h']

/-- Totality: two distinct keys compare one way or the other. -/
theorem blt_total {a b : Bytes} (hne : a ≠ b) :
    blt a b = true ∨ blt b a = true := by
  cases hab : blt a b with
  | true => exact Or.inl rfl
  | false =>
    cases hba : blt b a with
    | true => exact Or.inr rfl
    | false => exact absurd (eq_of_not_blt hab hba) hne

theorem blt_of_ne_of_not_blt {a b : Bytes} (hne : a ≠ b) (h : blt a b = false) :
    blt b a = true := by
  rcases blt_total hne with h' | h'
  · exact absurd h' (by simp [h])
  · exact h'

/-! ## Error taxonomy

Mirrors heed's `Error` enum as used by `polymorph.rs`: `Error::Encoding`,
`Error::Decoding`, `Error::Io` (the conversion of `io::Error` used by
`put_reserved`) and the engine error wrapper. -/

/-- Modelled from the spec: the opaque engine failure (`EngineError`), with
the `NotFound` result distinguished because the query layer translates it to
an absence value; `keyExist` is the engine's key-order violation raised by a
strict append; `other` stands for any remaining engine failure (I/O,
map-full, transaction-invalid). -/
inductive MdbError where
  | notFound
  | keyExist
  | other (code : Nat)
deriving DecidableEq, Repr

/-- The `e.not_found()` test used by `polymorph.rs` to decide translation. -/
def MdbError.isNotFound : MdbError → Bool
  | .notFound => true
  | _ => false

/-- The kind of an `io::Error` as used by `put_reserved`: `UnexpectedEof`
is the reserved-write-incomplete failure, `WriteZero` the failure of a write
that does not fit the reserved region, and `otherKind` any I/O failure the
caller's writer returns on its own. -/
inductive IoErrorKind where
  | unexpectedEof
  | writeZero
  | otherKind (code : Nat)
deriving DecidableEq, Repr

/-- The error type of the access layer (heed's `Error`). -/
inductive Error where
  | encoding
  | decoding
  | io (kind : IoErrorKind)
  | mdb (e : MdbError)
deriving DecidableEq, Repr

/-! ## Codec contracts

`BytesEncode`/`BytesDecode` from the source, both fallible; encoding failure
becomes `Error.encoding` and decoding failure `Error.decoding`. -/

/-- A codec: the `BytesEncode`/`BytesDecode` pair for one typed domain. -/
structure Codec (α : Type) where
  encode : α → Option Bytes
  decode : Bytes → Option α

/-- The identity codec on raw byte strings (heed's `ByteSlice`). -/
def bytesCodec : Codec Bytes where
  encode := some
  decode := some

/-- A codec for single bytes (like heed's `U8`): decoding fails on any byte
string whose length is not one, so it can exhibit decode failures. -/
def u8Codec : Codec Nat where
  encode n := some [n]
  decode b := match b with
    | [n] => some n
    | _ => none

/-! ## Engine model

Modelled from the spec: the external interfaces of §6 (`raw_get`,
`raw_put` with normal/append/reserve flags, `raw_delete`, `raw_stat`,
`drop_table_contents`) realized on a sorted association list. -/

/-- Modelled from the spec: `raw_get(transaction, table, key_bytes)` —
the engine's exact lookup, `NotFound` when the key is absent. -/
def getRaw (t : Table) (k : Bytes) : Option Bytes :=
  match t.find? (fun e => e.1 == k) with
  | some e => some e.2
  | none => none

/-- Modelled from the spec: `raw_put` with the `normal` flag —
insert-or-overwrite keeping the table in key order. -/
def putRaw (t : Table) (k v : Bytes) : Table :=
  match t with
  | [] => [(k, v)]
  | e :: rest =>
    if blt e.1 k then e :: putRaw rest k v
    else if e.1 = k then (k, v) :: rest
    else (k, v) :: e :: rest

/-- Modelled from the spec: `raw_delete(transaction, table, key_bytes)` —
removes the entry for the key; reports whether one existed. -/
def delRaw (t : Table) (k : Bytes) : Table :=
  t.filter (fun e => ¬ e.1 = k)

/-- Modelled from the spec: `raw_put` with the `append` flag — strict-append
semantics: the new key must be strictly greater than the last (greatest) key
already present, otherwise the engine fails with a key-order violation and
the table is left untouched. -/
def appendRaw (t : Table) (k v : Bytes) : Except MdbError Table :=
  match t.getLast? with
  | none => .ok (t ++ [(k, v)])
  | some e => if blt e.1 k then .ok (t ++ [(k, v)]) else .error .keyExist

/-- Modelled from the spec: `drop_table_contents` — removes every entry. -/
def clearRaw (_t : Table) : Table := []

/-! ## Cursor model

Modelled from the spec: §4.2's read-only cursor on one table.  A position is
an index into the sorted entry list; `t.length` is the past-the-end position
a failed at-or-after seek leaves the cursor in (from that position a
`move_to_prev` reaches the last entry, the behaviour the source's
`get_lower_than` doctest pins down). -/

/-- Modelled from the spec: the position reached by
`move_to_key_at_or_after(bytes)` — the index of the first entry whose key is
≥ the given bytes, or `t.length` when none exists. -/
def seekGE (t : Table) (k : Bytes) : Nat :=
  match t with
  | [] => 0
  | e :: rest => if blt e.1 k then seekGE rest k + 1 else 0

/-- The entry a cursor standing at position `i` reads. -/
def cursorEntry (t : Table) (i : Nat) : Option Entry := t.get? i

/-- Modelled from the spec: `move_to_prev` — the entry adjacent to the
current position in the backward direction (from past-the-end this is the
last entry). -/
def cursorPrev (t : Table) (i : Nat) : Option Entry :=
  if i = 0 then none else t.get? (i - 1)

/-- Modelled from the spec: `move_to_next` — the entry adjacent to the
current position in the forward direction. -/
def cursorNext (t : Table) (i : Nat) : Option Entry :=
  t.get? (i + 1)

/-! ## The polymorphic database handle -/

/-- `PolyDatabase`: the copyable table handle, carrying the environment
identity tag and the engine table identifier (`env_ident`, `dbi`). -/
structure PolyDatabase where
  env_ident : Nat
  dbi : Nat
deriving DecidableEq, Repr

/-- A transaction: its environment identity plus the table state its
snapshot (read-only) or in-flight mutation context (read-write) sees.
Mutating operations return the updated table state. -/
structure RoTxn where
  env_ident : Nat
  table : Table
deriving DecidableEq, Repr

/-- The outcome of a public operation: either the assertion
`assert_eq_env_db_txn!` fired (cross-environment misuse, fail fast before
touching the table) or the operation ran and produced a result. -/
inductive Checked (α : Type) where
  | assertFail
  | ok (a : α)
deriving DecidableEq, Repr

/-- Modelled from the spec: the `assert_eq_env_db_txn!` macro — compares the
handle's environment identity with the transaction's and fails fast
(assertion level) when they differ. -/
def envOk (db : PolyDatabase) (txn : RoTxn) : Bool :=
  db.env_ident == txn.env_ident

/-- Decoding of one raw entry through a key and a value codec, as every
read operation of the source does: failure of either decode is
`Error::Decoding`. -/
def decodeEntry {K V : Type} (kc : Codec K) (dc : Codec V) (e : Entry) :
    Except Error (K × V) :=
  match kc.decode e.1, dc.decode e.2 with
  | some k, some v => .ok (k, v)
  | _, _ => .error .decoding

/-- The entry-or-absent decoding used by the single-entry queries. -/
def decodeEntryOpt {K V : Type} (kc : Codec K) (dc : Codec V) :
    Option Entry → Except Error (Option (K × V))
  | some e =>
    match decodeEntry kc dc e with
    | .ok kv => .ok (some kv)
    | .error e => .error e
  | none => .ok none

/-- The engine lookup as seen by `get`: `mdb_get`, `NotFound` when absent. -/
def mdbGet (t : Table) (k : Bytes) : Except MdbError Bytes :=
  match getRaw t k with
  | some v => .ok v
  | none => .error .notFound

/-- The result translation at the end of `PolyDatabase::get`: a found value
is decoded (`Error::Decoding` on failure), an engine not-found result is
translated to `None`, any other engine failure propagates. -/
def getResultTranslate {V : Type} (dc : Codec V) (r : Except MdbError Bytes) :
    Except Error (Option V) :=
  match r with
  | .ok data =>
    match dc.decode data with
    | some d => .ok (some d)
    | none => .error .decoding
  | .error e => if e.isNotFound then .ok none else .error (.mdb e)

/-- Body of `PolyDatabase::get` after the environment assertion: encode the
key, run the engine lookup, translate the result. -/
def PolyDatabase.getCore {K V : Type} (kc : Codec K) (dc : Codec V)
    (t : Table) (key : K) : Except Error (Option V) :=
  match kc.encode key with
  | none => .error .encoding
  | some kb => getResultTranslate dc (mdbGet t kb)

/-- `PolyDatabase::get`. -/
def PolyDatabase.get {K V : Type} (db : PolyDatabase) (txn : RoTxn)
    (kc : Codec K) (dc : Codec V) (key : K) : Checked (Except Error (Option V)) :=
  if envOk db txn then .ok (PolyDatabase.getCore kc dc txn.table key)
  else .assertFail

/-- Body of `PolyDatabase::get_lower_than`: seek at-or-after the encoded
key, then one `move_on_prev`. -/
def PolyDatabase.getLowerThanCore {K V : Type} (kc : Codec K) (dc : Codec V)
    (t : Table) (key : K) : Except Error (Option (K × V)) :=
  match kc.encode key with
  | none => .error .encoding
  | some kb => decodeEntryOpt kc dc (cursorPrev t (seekGE t kb))

/-- `PolyDatabase::get_lower_than`. -/
def PolyDatabase.getLowerThan {K V : Type} (db : PolyDatabase) (txn : RoTxn)
    (kc : Codec K) (dc : Codec V) (key : K) :
    Checked (Except Error (Option (K × V))) :=
  if envOk db txn then .ok (PolyDatabase.getLowerThanCore kc dc txn.table key)
  else .assertFail

/-- Body of `PolyDatabase::get_lower_than_or_equal_to`: seek at-or-after;
if the landed key equals the encoded key return it, otherwise one
`move_on_prev`. -/
def PolyDatabase.getLowerThanOrEqualToCore {K V : Type} (kc : Codec K)
    (dc : Codec V) (t : Table) (key : K) : Except Error (Option (K × V)) :=
  match kc.encode key with
  | none => .error .encoding
  | some kb =>
    let i := seekGE t kb
    let entry :=
      match cursorEntry t i with
      | some e => if e.1 = kb then some e else cursorPrev t i
      | none => cursorPrev t i
    decodeEntryOpt kc dc entry

/-- `PolyDatabase::get_lower_than_or_equal_to`. -/
def PolyDatabase.getLowerThanOrEqualTo {K V : Type} (db : PolyDatabase)
    (txn : RoTxn) (kc : Codec K) (dc : Codec V) (key : K) :
    Checked (Except Error (Option (K × V))) :=
  if envOk db txn then
    .ok (PolyDatabase.getLowerThanOrEqualToCore kc dc txn.table key)
  else .assertFail

/-- Body of `PolyDatabase::get_greater_than`: seek at-or-after; if the
landed key is strictly greater than the encoded key keep it, otherwise one
`move_on_next`. -/
def PolyDatabase.getGreaterThanCore {K V : Type} (kc : Codec K) (dc : Codec V)
    (t : Table) (key : K) : Except Error (Option (K × V)) :=
  match kc.encode key with
  | none => .error .encoding
  | some kb =>
    let i := seekGE t kb
    let entry :=
      match cursorEntry t i with
      | some e => if blt kb e.1 then some e else cursorNext t i
      | none => none
    decodeEntryOpt kc dc entry

/-- `PolyDatabase::get_greater_than`. -/
def PolyDatabase.getGreaterThan {K V : Type} (db : PolyDatabase) (txn : RoTxn)
    (kc : Codec K) (dc : Codec V) (key : K) :
    Checked (Except Error (Option (K × V))) :=
  if envOk db txn then .ok (PolyDatabase.getGreaterThanCore kc dc txn.table key)
  else .assertFail

/-- Body of `PolyDatabase::get_greater_than_or_equal_to`: exactly the seek
at-or-after. -/
def PolyDatabase.getGreaterThanOrEqualToCore {K V : Type} (kc : Codec K)
    (dc : Codec V) (t : Table) (key : K) : Except Error (Option (K × V)) :=
  match kc.encode key with
  | none => .error .encoding
  | some kb => decodeEntryOpt kc dc (cursorEntry t (seekGE t kb))

/-- `PolyDatabase::get_greater_than_or_equal_to`. -/
def PolyDatabase.getGreaterThanOrEqualTo {K V : Type} (db : PolyDatabase)
    (txn : RoTxn) (kc : Codec K) (dc : Codec V) (key : K) :
    Checked (Except Error (Option (K × V))) :=
  if envOk db txn then
    .ok (PolyDatabase.getGreaterThanOrEqualToCore kc dc txn.table key)
  else .assertFail

/-- Body of `PolyDatabase::first`: `move_on_first`, decoded. -/
def PolyDatabase.firstCore {K V : Type} (kc : Codec K) (dc : Codec V)
    (t : Table) : Except Error (Option (K × V)) :=
  decodeEntryOpt kc dc t.head?

/-- `PolyDatabase::first`. -/
def PolyDatabase.first {K V : Type} (db : PolyDatabase) (txn : RoTxn)
    (kc : Codec K) (dc : Codec V) : Checked (Except Error (Option (K × V))) :=
  if envOk db txn then .ok (PolyDatabase.firstCore kc dc txn.table)
  else .assertFail

/-- Body of `PolyDatabase::last`: `move_on_last`, decoded. -/
def PolyDatabase.lastCore {K V : Type} (kc : Codec K) (dc : Codec V)
    (t : Table) : Except Error (Option (K × V)) :=
  decodeEntryOpt kc dc t.getLast?

/-- `PolyDatabase::last`. -/
def PolyDatabase.last {K V : Type} (db : PolyDatabase) (txn : RoTxn)
    (kc : Codec K) (dc : Codec V) : Checked (Except Error (Option (K × V))) :=
  if envOk db txn then .ok (PolyDatabase.lastCore kc dc txn.table)
  else .assertFail

/-- Body of `PolyDatabase::len`: the engine's `ms_entries` statistic. -/
def PolyDatabase.lenCore (t : Table) : Except Error Nat :=
  .ok t.length

/-- `PolyDatabase::len`. -/
def PolyDatabase.len (db : PolyDatabase) (txn : RoTxn) :
    Checked (Except Error Nat) :=
  if envOk db txn then .ok (PolyDatabase.lenCore txn.table) else .assertFail

/-- Body of `PolyDatabase::is_empty`: `move_on_first`, no decoding at all —
`Some` means `false`, `None` means `true`. -/
def PolyDatabase.isEmptyCore (t : Table) : Except Error Bool :=
  match t.head? with
  | some _ => .ok false
  | none => .ok true

/-- `PolyDatabase::is_empty`. -/
def PolyDatabase.isEmpty (db : PolyDatabase) (txn : RoTxn) :
    Checked (Except Error Bool) :=
  if envOk db txn then .ok (PolyDatabase.isEmptyCore txn.table) else .assertFail

/-! ## Range bounds and iterators -/

/-- A typed range bound (`std::ops::Bound<&K>` as consumed by `range`). -/
inductive TypedBound (K : Type) where
  | included (k : K)
  | excluded (k : K)
  | unbounded

/-- An encoded interval bound: `Bound<Vec<u8>>`, owned, computed once per
range call. -/
inductive RangeBound where
  | included (b : Bytes)
  | excluded (b : Bytes)
  | unbounded
deriving DecidableEq, Repr

/-- The bound-encoding step at the head of `range`/`rev_range`/`range_mut`/
`rev_range_mut`: each present bound is encoded once through the key codec,
an encoding failure aborts the call. -/
def encodeBound {K : Type} (kc : Codec K) : TypedBound K → Except Error RangeBound
  | .included k =>
    match kc.encode k with
    | some b => .ok (.included b)
    | none => .error .encoding
  | .excluded k =>
    match kc.encode k with
    | some b => .ok (.excluded b)
    | none => .error .encoding
  | .unbounded => .ok .unbounded

/-- Does a key satisfy the upper bound of an interval? -/
def upperOk : RangeBound → Bytes → Bool
  | .included b, k => !(blt b k)
  | .excluded b, k => blt k b
  | .unbounded, _ => true

/-- Does a key satisfy the lower bound of an interval? -/
def lowerOk : RangeBound → Bytes → Bool
  | .included b, k => !(blt k b)
  | .excluded b, k => blt b k
  | .unbounded, _ => true

/-- Membership of a key in the encoded interval. -/
def inBounds (lo hi : RangeBound) (k : Bytes) : Bool :=
  lowerOk lo k && upperOk hi k

/-- Modelled from the spec: the start position of a forward ranged iterator,
derived from the single at-or-after primitive — seek to `lo` (first entry,
if `lo` is unbounded); for an excluded bound, step forward once when the
landed key equals the bound. -/
def rangeStartIdx (t : Table) : RangeBound → Nat
  | .included b => seekGE t b
  | .excluded b =>
    let i := seekGE t b
    match cursorEntry t i with
    | some e => if e.1 = b then i + 1 else i
    | none => i
  | .unbounded => 0

/-- Modelled from the spec: the yielding loop of the iterator state machine
— yield the current entry while it satisfies the predicate, go to the
terminal exhausted state at the first violation. -/
def takeLoop (p : Bytes → Bool) : List Entry → List Entry
  | [] => []
  | e :: rest => if p e.1 then e :: takeLoop p rest else []

/-- Modelled from the spec: the entries a forward ranged iterator
(`RoRange`/`RwRange`) yields, raw: start at the lower bound's position,
advance while the upper bound holds. -/
def rangeRawEntries (t : Table) (lo hi : RangeBound) : List Entry :=
  takeLoop (upperOk hi) (t.drop (rangeStartIdx t lo))

/-- Modelled from the spec: the start position of a reverse ranged iterator
— seek to `hi` via at-or-after, keep the landed entry when it sits exactly
on an included `hi`, otherwise step back once; seek-last when `hi` is
unbounded; for an excluded `hi` an exact landing also steps back (the
source's tie-break policy). -/
def revRangeStartIdx (t : Table) : RangeBound → Option Nat
  | .included b =>
    let i := seekGE t b
    match cursorEntry t i with
    | some e =>
      if e.1 = b then some i
      else if i = 0 then none else some (i - 1)
    | none => if i = 0 then none else some (i - 1)
  | .excluded b =>
    let i := seekGE t b
    if i = 0 then none else some (i - 1)
  | .unbounded => if t.isEmpty then none else some (t.length - 1)

/-- Modelled from the spec: the backward yielding loop — yield the entry at
the current position while the lower bound holds, stepping `move_to_prev`. -/
def revTakeLoop (t : Table) (p : Bytes → Bool) : Nat → List Entry
  | 0 =>
    match cursorEntry t 0 with
    | some e => if p e.1 then [e] else []
    | none => []
  | i + 1 =>
    match cursorEntry t (i + 1) with
    | some e => if p e.1 then e :: revTakeLoop t p i else []
    | none => []

/-- Modelled from the spec: the entries a reverse ranged iterator
(`RoRevRange`/`RwRevRange`) yields, raw. -/
def revRangeRawEntries (t : Table) (lo hi : RangeBound) : List Entry :=
  match revRangeStartIdx t hi with
  | none => []
  | some i => revTakeLoop t (lowerOk lo) i

/-- A forward ranged read-only iterator: its cursor's table and the two
encoded bounds, computed once. -/
structure RoRange where
  table : Table
  startBound : RangeBound
  endBound : RangeBound
deriving DecidableEq, Repr

/-- The raw entries the iterator yields over its lifetime. -/
def RoRange.rawEntries (r : RoRange) : List Entry :=
  rangeRawEntries r.table r.startBound r.endBound

/-- The decoded entries: each advance decodes the current raw entry through
the key/value codecs, a decode failure surfacing as an error at that step. -/
def RoRange.entries {K V : Type} (r : RoRange) (kc : Codec K) (dc : Codec V) :
    List (Except Error (K × V)) :=
  r.rawEntries.map (decodeEntry kc dc)

/-- A reverse ranged read-only iterator. -/
structure RoRevRange where
  table : Table
  startBound : RangeBound
  endBound : RangeBound
deriving DecidableEq, Repr

/-- The raw entries the reverse iterator yields over its lifetime. -/
def RoRevRange.rawEntries (r : RoRevRange) : List Entry :=
  revRangeRawEntries r.table r.startBound r.endBound

/-- The decoded entries of the reverse iterator. -/
def RoRevRange.entries {K V : Type} (r : RoRevRange) (kc : Codec K)
    (dc : Codec V) : List (Except Error (K × V)) :=
  r.rawEntries.map (decodeEntry kc dc)

/-- Body of `PolyDatabase::range`: encode both bounds once, build the
iterator. -/
def PolyDatabase.rangeCore {K : Type} (kc : Codec K) (t : Table)
    (lo hi : TypedBound K) : Except Error RoRange :=
  match encodeBound kc lo with
  | .error e => .error e
  | .ok lob =>
    match encodeBound kc hi with
    | .error e => .error e
    | .ok hib => .ok ⟨t, lob, hib⟩

/-- `PolyDatabase::range`. -/
def PolyDatabase.range {K : Type} (db : PolyDatabase) (txn : RoTxn)
    (kc : Codec K) (lo hi : TypedBound K) : Checked (Except Error RoRange) :=
  if envOk db txn then .ok (PolyDatabase.rangeCore kc txn.table lo hi)
  else .assertFail

/-- `PolyDatabase::range_mut` (same body over a write transaction). -/
def PolyDatabase.rangeMut {K : Type} (db : PolyDatabase) (txn : RoTxn)
    (kc : Codec K) (lo hi : TypedBound K) : Checked (Except Error RoRange) :=
  if envOk db txn then .ok (PolyDatabase.rangeCore kc txn.table lo hi)
  else .assertFail

/-- Body of `PolyDatabase::rev_range`. -/
def PolyDatabase.revRangeCore {K : Type} (kc : Codec K) (t : Table)
    (lo hi : TypedBound K) : Except Error RoRevRange :=
  match encodeBound kc lo with
  | .error e => .error e
  | .ok lob =>
    match encodeBound kc hi with
    | .error e => .error e
    | .ok hib => .ok ⟨t, lob, hib⟩

/-- `PolyDatabase::rev_range`. -/
def PolyDatabase.revRange {K : Type} (db : PolyDatabase) (txn : RoTxn)
    (kc : Codec K) (lo hi : TypedBound K) : Checked (Except Error RoRevRange) :=
  if envOk db txn then .ok (PolyDatabase.revRangeCore kc txn.table lo hi)
  else .assertFail

/-- `PolyDatabase::rev_range_mut`. -/
def PolyDatabase.revRangeMut {K : Type} (db : PolyDatabase) (txn : RoTxn)
    (kc : Codec K) (lo hi : TypedBound K) : Checked (Except Error RoRevRange) :=
  if envOk db txn then .ok (PolyDatabase.revRangeCore kc txn.table lo hi)
  else .assertFail

/-- An unranged forward iterator (`RoIter`): seek-first then move-next. -/
structure RoIter where
  table : Table
deriving DecidableEq, Repr

/-- The raw entries of a forward unranged iterator: the whole table in key
order. -/
def RoIter.rawEntries (it : RoIter) : List Entry := it.table

/-- An unranged reverse iterator (`RoRevIter`): seek-last then move-prev. -/
structure RoRevIter where
  table : Table
deriving DecidableEq, Repr

/-- The raw entries of a reverse unranged iterator. -/
def RoRevIter.rawEntries (it : RoRevIter) : List Entry := it.table.reverse

/-- `PolyDatabase::iter`. -/
def PolyDatabase.iter (db : PolyDatabase) (txn : RoTxn) :
    Checked (Except Error RoIter) :=
  if envOk db txn then .ok (.ok ⟨txn.table⟩) else .assertFail

/-- `PolyDatabase::iter_mut`. -/
def PolyDatabase.iterMut (db : PolyDatabase) (txn : RoTxn) :
    Checked (Except Error RoIter) :=
  if envOk db txn then .ok (.ok ⟨txn.table⟩) else .assertFail

/-- `PolyDatabase::rev_iter`. -/
def PolyDatabase.revIter (db : PolyDatabase) (txn : RoTxn) :
    Checked (Except Error RoRevIter) :=
  if envOk db txn then .ok (.ok ⟨txn.table⟩) else .assertFail

/-- `PolyDatabase::rev_iter_mut`. -/
def PolyDatabase.revIterMut (db : PolyDatabase) (txn : RoTxn) :
    Checked (Except Error RoRevIter) :=
  if envOk db txn then .ok (.ok ⟨txn.table⟩) else .assertFail

/-- A prefixed iterator: its table and the encoded byte prefix. -/
structure RoPrefix where
  table : Table
  pfx : Bytes
deriving DecidableEq, Repr

/-- Modelled from the spec: the raw entries of a forward prefixed iterator —
exactly the entries whose key starts with the byte prefix, in key order. -/
def RoPrefix.rawEntries (it : RoPrefix) : List Entry :=
  takeLoop (fun k => it.pfx.isPrefixOf k) (it.table.drop (seekGE it.table it.pfx))

/-- Body of `PolyDatabase::prefix_iter`: encode the prefix once. -/
def PolyDatabase.prefixIterCore {K : Type} (kc : Codec K) (t : Table)
    (p : K) : Except Error RoPrefix :=
  match kc.encode p with
  | some pb => .ok ⟨t, pb⟩
  | none => .error .encoding

/-- `PolyDatabase::prefix_iter`. -/
def PolyDatabase.prefixIter {K : Type} (db : PolyDatabase) (txn : RoTxn)
    (kc : Codec K) (p : K) : Checked (Except Error RoPrefix) :=
  if envOk db txn then .ok (PolyDatabase.prefixIterCore kc txn.table p)
  else .assertFail

/-- `PolyDatabase::prefix_iter_mut`. -/
def PolyDatabase.prefixIterMut {K : Type} (db : PolyDatabase) (txn : RoTxn)
    (kc : Codec K) (p : K) : Checked (Except Error RoPrefix) :=
  if envOk db txn then .ok (PolyDatabase.prefixIterCore kc txn.table p)
  else .assertFail

/-- A reverse prefixed iterator. -/
structure RoRevPrefix where
  table : Table
  pfx : Bytes
deriving DecidableEq, Repr

/-- Modelled from the spec: the raw entries of a reverse prefixed iterator —
the same entries in reverse key order. -/
def RoRevPrefix.rawEntries (it : RoRevPrefix) : List Entry :=
  (takeLoop (fun k => it.pfx.isPrefixOf k)
    (it.table.drop (seekGE it.table it.pfx))).reverse

/-- `PolyDatabase::rev_prefix_iter`. -/
def PolyDatabase.revPrefixIter {K : Type} (db : PolyDatabase) (txn : RoTxn)
    (kc : Codec K) (p : K) : Checked (Except Error RoRevPrefix) :=
  if envOk db txn then
    .ok (match kc.encode p with
      | some pb => .ok ⟨txn.table, pb⟩
      | none => .error .encoding)
  else .assertFail

/-- `PolyDatabase::rev_prefix_iter_mut`. -/
def PolyDatabase.revPrefixIterMut {K : Type} (db : PolyDatabase) (txn : RoTxn)
    (kc : Codec K) (p : K) : Checked (Except Error RoRevPrefix) :=
  if envOk db txn then
    .ok (match kc.encode p with
      | some pb => .ok ⟨txn.table, pb⟩
      | none => .error .encoding)
  else .assertFail

/-! ## Mutating operations

Each returns the table state after the call next to the call's outcome, so
the theorems can speak about the state even when the call errors. -/

/-- Body of `PolyDatabase::put`: encode key and value, engine
insert-or-overwrite with `flags = 0`. -/
def PolyDatabase.putCore {K V : Type} (kc : Codec K) (dc : Codec V)
    (t : Table) (key : K) (v : V) : Table × Except Error Unit :=
  match kc.encode key with
  | none => (t, .error .encoding)
  | some kb =>
    match dc.encode v with
    | none => (t, .error .encoding)
    | some vb => (putRaw t kb vb, .ok ())

/-- `PolyDatabase::put`. -/
def PolyDatabase.put {K V : Type} (db : PolyDatabase) (txn : RoTxn)
    (kc : Codec K) (dc : Codec V) (key : K) (v : V) :
    Checked (Table × Except Error Unit) :=
  if envOk db txn then .ok (PolyDatabase.putCore kc dc txn.table key v)
  else .assertFail

/-- Body of `PolyDatabase::append`: encode key and value, engine put with
`MDB_APPEND`; the engine's key-order violation propagates and leaves the
table untouched. -/
def PolyDatabase.appendCore {K V : Type} (kc : Codec K) (dc : Codec V)
    (t : Table) (key : K) (v : V) : Table × Except Error Unit :=
  match kc.encode key with
  | none => (t, .error .encoding)
  | some kb =>
    match dc.encode v with
    | none => (t, .error .encoding)
    | some vb =>
      match appendRaw t kb vb with
      | .ok t' => (t', .ok ())
      | .error e => (t, .error (.mdb e))

/-- `PolyDatabase::append`. -/
def PolyDatabase.append {K V : Type} (db : PolyDatabase) (txn : RoTxn)
    (kc : Codec K) (dc : Codec V) (key : K) (v : V) :
    Checked (Table × Except Error Unit) :=
  if envOk db txn then .ok (PolyDatabase.appendCore kc dc txn.table key v)
  else .assertFail

/-- Modelled from the spec: the caller's writer passed to `put_reserved`,
characterised observably: the byte sequence it attempts to write into the
reserved space (in one write call) and, `none` if it then returns
successfully, `some code` if it returns an I/O failure of its own. -/
structure WriterModel where
  bytes : Bytes
  failCode : Option Nat
deriving DecidableEq, Repr

/-- Modelled from the spec: `ReservedSpace`'s write — copies the bytes when
they fit in the remaining reserved region, and fails (nothing copied,
`WriteZero`) when the writer attempts to write more than fits; the
uninitialized part of the reservation is modelled as zero bytes. -/
def reservedWrite (size : Nat) (bytes : Bytes) : Except Error Bytes :=
  if size < bytes.length then .error (.io .writeZero)
  else .ok (bytes ++ List.replicate (size - bytes.length) 0)

/-- Body of `PolyDatabase::put_reserved`: encode the key, reserve `size`
bytes in place for it with `MDB_RESERVE` (this inserts the entry), run the
writer against the scoped buffer, then succeed only when the reserved
region was filled exactly (`remaining() == 0`), otherwise fail with the
`UnexpectedEof` I/O error. -/
def PolyDatabase.putReservedCore {K : Type} (kc : Codec K) (t : Table)
    (key : K) (size : Nat) (w : WriterModel) : Table × Except Error Unit :=
  match kc.encode key with
  | none => (t, .error .encoding)
  | some kb =>
    let t1 := putRaw t kb (List.replicate size 0)
    match reservedWrite size w.bytes with
    | .error e => (t1, .error e)
    | .ok buf =>
      let t2 := putRaw t1 kb buf
      match w.failCode with
      | some c => (t2, .error (.io (.otherKind c)))
      | none =>
        if size - w.bytes.length = 0 then (t2, .ok ())
        else (t2, .error (.io .unexpectedEof))

/-- `PolyDatabase::put_reserved`. -/
def PolyDatabase.putReserved {K : Type} (db : PolyDatabase) (txn : RoTxn)
    (kc : Codec K) (key : K) (size : Nat) (w : WriterModel) :
    Checked (Table × Except Error Unit) :=
  if envOk db txn then
    .ok (PolyDatabase.putReservedCore kc txn.table key size w)
  else .assertFail

/-- Body of `PolyDatabase::delete`: encode the key, engine delete; the
not-found result is translated to `false`. -/
def PolyDatabase.deleteCore {K : Type} (kc : Codec K) (t : Table) (key : K) :
    Table × Except Error Bool :=
  match kc.encode key with
  | none => (t, .error .encoding)
  | some kb =>
    match getRaw t kb with
    | some _ => (delRaw t kb, .ok true)
    | none => (t, .ok false)

/-- `PolyDatabase::delete`. -/
def PolyDatabase.delete {K : Type} (db : PolyDatabase) (txn : RoTxn)
    (kc : Codec K) (key : K) : Checked (Table × Except Error Bool) :=
  if envOk db txn then .ok (PolyDatabase.deleteCore kc txn.table key)
  else .assertFail

/-- The deletion loop of `PolyDatabase::delete_range`: while
`iter.next().is_some()` — the yielded `Result` (the key decoded through
`KC`, the value through `DecodeIgnore`) is checked only for presence, so a
decode failure is discarded — delete the current entry and count it. -/
def deleteRangeLoop {K : Type} (kc : Codec K) (hi : RangeBound) :
    Table → Nat → Nat → Table × Nat
  | t, i, count =>
    match h : cursorEntry t i with
    | some e =>
      if upperOk hi e.1 then
        let _discarded := kc.decode e.1
        deleteRangeLoop kc hi (t.eraseIdx i) i (count + 1)
      else (t, count)
    | none => (t, count)
termination_by t _ _ => t.length
decreasing_by
  simp only [cursorEntry] at h
  have hi' : i < t.length := by
    by_contra hge
    rw [List.get?_eq_none.mpr (Nat.le_of_not_lt hge)] at h
    exact Option.noConfusion h
  calc (t.eraseIdx i).length < t.length := by
        rw [List.length_eraseIdx_of_lt hi']
        exact Nat.sub_lt (Nat.lt_of_le_of_lt (Nat.zero_le i) hi') Nat.one_pos

/-- Body of `PolyDatabase::delete_range`: a forward ranged mutable iterator
over the interval (`KC` for keys, `DecodeIgnore` for values), deleting every
visited entry via `del_current` and returning the count. -/
def PolyDatabase.deleteRangeCore {K : Type} (kc : Codec K) (t : Table)
    (lo hi : TypedBound K) : Table × Except Error Nat :=
  match encodeBound kc lo with
  | .error e => (t, .error e)
  | .ok lob =>
    match encodeBound kc hi with
    | .error e => (t, .error e)
    | .ok hib =>
      let s := rangeStartIdx t lob
      let r := deleteRangeLoop kc hib t s 0
      (r.1, .ok r.2)

/-- `PolyDatabase::delete_range`. -/
def PolyDatabase.deleteRange {K : Type} (db : PolyDatabase) (txn : RoTxn)
    (kc : Codec K) (lo hi : TypedBound K) : Checked (Table × Except Error Nat) :=
  if envOk db txn then .ok (PolyDatabase.deleteRangeCore kc txn.table lo hi)
  else .assertFail

/-- `PolyDatabase::clear`: drop the table's contents in one engine call. -/
def PolyDatabase.clear (db : PolyDatabase) (txn : RoTxn) : Checked Table :=
  if envOk db txn then .ok (clearRaw txn.table) else .assertFail

/-! ## Helper lemmas on bounds and loops -/

theorem lowerOk_mono {lo : RangeBound} {k k' : Bytes} (hkk : blt k k' = true)
    (h : lowerOk lo k = true) : lowerOk lo k' = true := by
  cases lo with
  | unbounded => rfl
  | included b =>
    simp only [lowerOk, Bool.not_eq_true'] at h ⊢
    cases hb : blt k' b with
    | false => rfl
    | true => rw [blt_trans hkk hb] at h; exact h
  | excluded b =>
    simp only [lowerOk] at h ⊢
    exact blt_trans h hkk

theorem upperOk_antimono {hi : RangeBound} {k k' : Bytes} (hkk : blt k k' = true)
    (h : upperOk hi k' = true) : upperOk hi k = true := by
  cases hi with
  | unbounded => rfl
  | included b =>
    simp only [upperOk, Bool.not_eq_true'] at h ⊢
    cases hb : blt b k with
    | false => rfl
    | true => rw [blt_trans hb hkk] at h; exact h
  | excluded b =>
    simp only [upperOk] at h ⊢
    exact blt_trans hkk h

/-- On a list where the predicate can only turn from true to false (no
later entry revives it), the yielding loop keeps exactly the satisfying
entries. -/
theorem takeLoop_eq_filter {p : Bytes → Bool} {l : List Entry}
    (h : l.Pairwise (fun a b => p b.1 = true → p a.1 = true)) :
    takeLoop p l = l.filter (fun e => p e.1) := by
  induction l with
  | nil => rfl
  | cons e rest ih =>
    rw [List.pairwise_cons] at h
    obtain ⟨he, hrest⟩ := h
    cases hp : p e.1 with
    | true =>
      simp [takeLoop, hp, List.filter_cons, ih hrest]
    | false =>
      have hall : rest.filter (fun e => p e.1) = [] := by
        rw [List.filter_eq_nil_iff]
        intro x hx
        cases hpx : p x.1 with
        | false => simp [hpx]
        | true => rw [he x hx hpx] at hp; simp at hp
      simp [takeLoop, hp, List.filter_cons, hall]

/-- The yielding loop yields a prefix of its input. -/
theorem takeLoop_eq_take (p : Bytes → Bool) (l : List Entry) :
    takeLoop p l = l.take (takeLoop p l).length := by
  induction l with
  | nil => rfl
  | cons e rest ih =>
    cases hp : p e.1 with
    | true => simp only [takeLoop, hp, if_true, List.length_cons, List.take_succ_cons,
        List.cons.injEq, true_and]; exact ih
    | false => simp [takeLoop, hp]

theorem seekGE_le_length (t : Table) (k : Bytes) : seekGE t k ≤ t.length := by
  induction t with
  | nil => exact Nat.le_refl 0
  | cons e rest ih =>
    simp only [seekGE, List.length_cons]
    cases hb : blt e.1 k with
    | true => simpa using Nat.succ_le_succ ih
    | false => simp

/-- The entry a successful at-or-after seek lands on has key ≥ the sought
bytes. -/
theorem seekGE_landed {t : Table} {k : Bytes} {e : Entry}
    (h : cursorEntry t (seekGE t k) = some e) : blt e.1 k = false := by
  induction t with
  | nil => simp [cursorEntry] at h
  | cons e' rest ih =>
    cases hb : blt e'.1 k with
    | true =>
      apply ih
      simpa [cursorEntry, seekGE, hb] using h
    | false =>
      simp [cursorEntry, seekGE, hb] at h
      rw [← h]
      exact hb

/-- In a sorted table the first `seekGE` positions hold exactly the entries
with key strictly below the sought bytes, the rest exactly those at or
above it. -/
theorem seekGE_split {t : Table} {b : Bytes} (h : SortedTable t) :
    t.take (seekGE t b) = t.filter (fun e => blt e.1 b) ∧
      t.drop (seekGE t b) = t.filter (fun e => !(blt e.1 b)) := by
  induction t with
  | nil => exact ⟨rfl, rfl⟩
  | cons e rest ih =>
    rw [SortedTable, List.pairwise_cons] at h
    obtain ⟨he, hrest⟩ := h
    obtain ⟨ih1, ih2⟩ := ih hrest
    cases hb : blt e.1 b with
    | true =>
      constructor
      · simpa [seekGE, hb, List.filter_cons] using ih1
      · simpa [seekGE, hb, List.filter_cons] using ih2
    | false =>
      have hall : ∀ x ∈ rest, blt x.1 b = false := by
        intro x hx
        cases hxb : blt x.1 b with
        | false => rfl
        | true => rw [blt_trans (he x hx) hxb] at hb; exact hb
      have hnil : rest.filter (fun e => blt e.1 b) = [] := by
        rw [List.filter_eq_nil_iff]
        intro x hx
        simp [hall x hx]
      have hself : rest.filter (fun e => !(blt e.1 b)) = rest := by
        rw [List.filter_eq_self]
        intro x hx
        simp [hall x hx]
      constructor
      · simp [seekGE, hb, List.filter_cons, hnil]
      · simp [seekGE, hb, List.filter_cons, hself]

/-- The forward start position for an excluded lower bound is one step past
the entries at or below the bound. -/
theorem rangeStartIdx_excluded_cons {e : Entry} {rest : Table} {b : Bytes}
    (hb : blt e.1 b = true) :
    rangeStartIdx (e :: rest) (.excluded b) = rangeStartIdx rest (.excluded b) + 1 := by
  simp only [rangeStartIdx, seekGE, hb, if_true, cursorEntry, List.get?_cons_succ]
  cases hce : rest.get? (seekGE rest b) with
  | none => rfl
  | some e' =>
    by_cases he' : e'.1 = b <;> simp [he']

/-- In a sorted table the forward start position splits the table into the
entries below the lower bound and those inside it. -/
theorem rangeStartIdx_split {t : Table} (lo : RangeBound) (h : SortedTable t) :
    t.take (rangeStartIdx t lo) = t.filter (fun e => !(lowerOk lo e.1)) ∧
      t.drop (rangeStartIdx t lo) = t.filter (fun e => lowerOk lo e.1) := by
  cases lo with
  | unbounded =>
    constructor
    · simp [rangeStartIdx, lowerOk]
    · simp [rangeStartIdx, lowerOk]
  | included b =>
    obtain ⟨h1, h2⟩ := @seekGE_split t b h
    constructor
    · rw [show rangeStartIdx t (.included b) = seekGE t b from rfl, h1]
      apply List.filter_congr
      intro x _
      simp [lowerOk]
    · rw [show rangeStartIdx t (.included b) = seekGE t b from rfl, h2]
      apply List.filter_congr
      intro x _
      simp [lowerOk]
  | excluded b =>
    induction t with
    | nil => exact ⟨rfl, rfl⟩
    | cons e rest ih =>
      rw [SortedTable, List.pairwise_cons] at h
      obtain ⟨he, hrest⟩ := h
      obtain ⟨ih1, ih2⟩ := ih hrest
      cases hb : blt e.1 b with
      | true =>
        have hstep := @rangeStartIdx_excluded_cons e rest b hb
        have hbe : blt b e.1 = false := blt_asymm hb
        constructor
        · rw [hstep, List.take_succ_cons, List.filter_cons]
          simp only [lowerOk, hbe, Bool.not_false, if_true]
          simpa using ih1
        · rw [hstep, List.drop_succ_cons, List.filter_cons]
          simp only [lowerOk, hbe]
          simpa using ih2
      | false =>
        by_cases heb : e.1 = b
        · have hid : rangeStartIdx (e :: rest) (.excluded b) = 1 := by
            simp [rangeStartIdx, seekGE, cursorEntry, blt_irrefl, heb]
          have hbb : blt b b = false := blt_irrefl b
          have hall : ∀ x ∈ rest, blt b x.1 = true := by
            intro x hx
            have := he x hx
            rw [heb] at this
            exact this
          constructor
          · rw [hid]
            simp [List.filter_cons, lowerOk, heb, hbb, List.take_succ_cons,
              List.filter_eq_nil_iff]
            intro a c hmem
            exact hall (a, c) hmem
          · rw [hid]
            simp [List.filter_cons, lowerOk, heb, hbb]
            exact (List.filter_eq_self.mpr (fun x hx => by simp [hall x hx])).symm
        · have hbe : blt b e.1 = true := blt_of_ne_of_not_blt heb hb
          have hid : rangeStartIdx (e :: rest) (.excluded b) = 0 := by
            simp [rangeStartIdx, seekGE, hb, cursorEntry, heb]
          have hall : ∀ x ∈ rest, blt b x.1 = true :=
            fun x hx => blt_trans hbe (he x hx)
          constructor
          · rw [hid]
            have hnil : (e :: rest).filter (fun e => !(lowerOk (.excluded b) e.1)) = [] := by
              rw [List.filter_eq_nil_iff]
              intro x hx
              rcases List.mem_cons.mp hx with rfl | hx'
              · simp [lowerOk, hbe]
              · simp [lowerOk, hall x hx']
            rw [List.take_zero, hnil]
          · rw [hid]
            have hself : (e :: rest).filter (fun e => lowerOk (.excluded b) e.1) = e :: rest := by
              rw [List.filter_eq_self]
              intro x hx
              rcases List.mem_cons.mp hx with rfl | hx'
              · simp [lowerOk, hbe]
              · simp [lowerOk, hall x hx']
            rw [List.drop_zero, hself]

/-- The central forward range law: on a sorted table a forward ranged
iterator yields exactly the entries inside the interval, in table order. -/
theorem rangeRawEntries_eq_filter {t : Table} {lo hi : RangeBound}
    (h : SortedTable t) :
    rangeRawEntries t lo hi = t.filter (fun e => inBounds lo hi e.1) := by
  rw [rangeRawEntries, (rangeStartIdx_split lo h).2]
  have hsorted : (t.filter (fun e => lowerOk lo e.1)).Pairwise
      (fun a b => upperOk hi b.1 = true → upperOk hi a.1 = true) :=
    (h.filter _).imp (fun hab hpb => upperOk_antimono hab hpb)
  rw [takeLoop_eq_filter hsorted, List.filter_filter]
  apply List.filter_congr
  intro x _
  simp [inBounds, Bool.and_comm]

/-- The backward yielding loop from position `i` is the forward loop over
the reversed prefix ending at `i`. -/
theorem revTakeLoop_eq {t : Table} {p : Bytes → Bool} {i : Nat}
    (hlt : i < t.length) :
    revTakeLoop t p i = takeLoop p ((t.take (i + 1)).reverse) := by
  induction i with
  | zero =>
    have he : t.get? 0 = some (t.get ⟨0, hlt⟩) := List.get?_eq_get hlt
    set e := t.get ⟨0, hlt⟩ with hedef
    have he' : t[0]? = some e := by rw [← List.get?_eq_getElem? ..]; exact he
    have htake : t.take 1 = [e] := by
      rw [List.take_succ, List.take_zero, he']
      rfl
    rw [revTakeLoop, htake]
    simp only [cursorEntry, he, List.reverse_singleton, takeLoop]
  | succ i ih =>
    have he : t.get? (i + 1) = some (t.get ⟨i + 1, hlt⟩) := List.get?_eq_get hlt
    set e := t.get ⟨i + 1, hlt⟩ with hedef
    have he' : t[i + 1]? = some e := by rw [← List.get?_eq_getElem? ..]; exact he
    have htake : t.take (i + 2) = t.take (i + 1) ++ [e] := by
      rw [List.take_succ, he']
      rfl
    rw [revTakeLoop, htake, List.reverse_append]
    simp only [cursorEntry, he, List.reverse_singleton, List.singleton_append, takeLoop]
    cases hp : p e.1 with
    | true => simp [ih (Nat.lt_of_succ_lt hlt)]
    | false => simp

/-- On a sorted table the reverse-range start position is the index of the
last entry satisfying the upper bound, `none` when no entry does. -/
theorem revRangeStartIdx_eq {t : Table} {hi : RangeBound} (h : SortedTable t) :
    revRangeStartIdx t hi =
      if (t.filter (fun e => upperOk hi e.1)).length = 0 then none
      else some ((t.filter (fun e => upperOk hi e.1)).length - 1) := by
  cases hi with
  | unbounded =>
    have hpred : (fun e : Entry => upperOk .unbounded e.1) = (fun _ : Entry => true) := rfl
    rw [hpred, List.filter_true]
    cases t with
    | nil => simp [revRangeStartIdx]
    | cons e rest => simp [revRangeStartIdx]
  | excluded b =>
    have hpred : (fun e : Entry => upperOk (.excluded b) e.1)
        = (fun e : Entry => blt e.1 b) := rfl
    rw [hpred, ← (@seekGE_split t b h).1, List.length_take,
      Nat.min_eq_left (seekGE_le_length t b)]
    simp [revRangeStartIdx]
  | included b =>
    induction t with
    | nil => simp [revRangeStartIdx, seekGE, cursorEntry]
    | cons e rest ih =>
      rw [SortedTable, List.pairwise_cons] at h
      obtain ⟨he, hrest⟩ := h
      have IH := ih hrest
      cases hb : blt e.1 b with
      | true =>
        have hbe : blt b e.1 = false := blt_asymm hb
        have hlen : ((e :: rest).filter (fun x => upperOk (.included b) x.1)).length
            = (rest.filter (fun x => upperOk (.included b) x.1)).length + 1 := by
          simp [List.filter_cons, upperOk, hbe]
        rw [hlen]
        set n := (rest.filter (fun x => upperOk (.included b) x.1)).length with hndef
        set s := seekGE rest b with hsdef
        rw [if_neg (Nat.succ_ne_zero n), Nat.add_sub_cancel]
        have hseek : seekGE (e :: rest) b = s + 1 := by simp [seekGE, hb]
        have hcur : cursorEntry (e :: rest) (s + 1) = cursorEntry rest s := by
          simp [cursorEntry]
        have hunfold : revRangeStartIdx (e :: rest) (.included b)
            = match cursorEntry rest s with
              | some e' => if e'.1 = b then some (s + 1) else some s
              | none => some s := by
          simp only [revRangeStartIdx, hseek, hcur]
          cases hce : cursorEntry rest s with
          | none => simp
          | some e' => by_cases he' : e'.1 = b <;> simp [he']
        have hrestu : revRangeStartIdx rest (.included b)
            = match cursorEntry rest s with
              | some e' => if e'.1 = b then some s
                  else if s = 0 then none else some (s - 1)
              | none => if s = 0 then none else some (s - 1) := rfl
        rw [hunfold]
        rw [hrestu] at IH
        by_cases hn : n = 0
        · rw [if_pos hn] at IH
          cases hce : cursorEntry rest s with
          | none =>
            simp only [hce] at IH ⊢
            by_cases hs : s = 0
            · simp [hs, hn]
            · rw [if_neg hs] at IH; exact absurd IH (by simp)
          | some e' =>
            simp only [hce] at IH ⊢
            by_cases he' : e'.1 = b
            · rw [if_pos he'] at IH; exact absurd IH (by simp)
            · rw [if_neg he'] at IH ⊢
              by_cases hs : s = 0
              · simp [hs, hn]
              · rw [if_neg hs] at IH; exact absurd IH (by simp)
        · rw [if_neg hn] at IH
          cases hce : cursorEntry rest s with
          | none =>
            simp only [hce] at IH ⊢
            by_cases hs : s = 0
            · rw [if_pos hs] at IH; exact absurd IH.symm (by simp)
            · rw [if_neg hs] at IH
              have : s - 1 = n - 1 := Option.some.inj IH
              have hs' : s = n := by omega
              rw [hs']
          | some e' =>
            simp only [hce] at IH ⊢
            by_cases he' : e'.1 = b
            · rw [if_pos he'] at IH ⊢
              have : s = n - 1 := Option.some.inj IH
              have hs' : s + 1 = n := by omega
              rw [hs']
            · rw [if_neg he'] at IH ⊢
              by_cases hs : s = 0
              · rw [if_pos hs] at IH; exact absurd IH.symm (by simp)
              · rw [if_neg hs] at IH
                have : s - 1 = n - 1 := Option.some.inj IH
                have hs' : s = n := by omega
                rw [hs']
      | false =>
        by_cases heb : e.1 = b
        · have hstart : revRangeStartIdx (e :: rest) (.included b) = some 0 := by
            simp [revRangeStartIdx, seekGE, hb, cursorEntry, heb, blt_irrefl]
          have hall : ∀ x ∈ rest, upperOk (.included b) x.1 = false := by
            intro x hx
            have hbx : blt b x.1 = true := heb ▸ he x hx
            simp [upperOk, hbx]
          have hfil : (e :: rest).filter (fun x => upperOk (.included b) x.1) = [e] := by
            rw [List.filter_cons]
            have hke : upperOk (.included b) e.1 = true := by
              simp [upperOk, heb, blt_irrefl]
            rw [hke, if_pos rfl]
            have : rest.filter (fun x => upperOk (.included b) x.1) = [] := by
              rw [List.filter_eq_nil_iff]
              intro x hx
              simp [hall x hx]
            rw [this]
          rw [hstart, hfil]
          simp
        · have hbe : blt b e.1 = true := blt_of_ne_of_not_blt heb hb
          have hstart : revRangeStartIdx (e :: rest) (.included b) = none := by
            simp [revRangeStartIdx, seekGE, hb, cursorEntry, heb, blt_irrefl]
          have hfil : (e :: rest).filter (fun x => upperOk (.included b) x.1) = [] := by
            rw [List.filter_eq_nil_iff]
            intro x hx
            rcases List.mem_cons.mp hx with rfl | hx'
            · simp [upperOk, hbe]
            · simp [upperOk, blt_trans hbe (he x hx')]
          rw [hstart, hfil]
          simp

/-- The central reverse range law: on a sorted table a reverse ranged
iterator yields exactly the entries inside the interval, in reverse table
order. -/
theorem revRangeRawEntries_eq {t : Table} {lo hi : RangeBound}
    (h : SortedTable t) :
    revRangeRawEntries t lo hi = (t.filter (fun e => inBounds lo hi e.1)).reverse := by
  have hfU : t.filter (fun e => upperOk hi e.1) = takeLoop (upperOk hi) t :=
    (takeLoop_eq_filter (h.imp (fun hab hpb => upperOk_antimono hab hpb))).symm
  set F := t.filter (fun e => upperOk hi e.1) with hFdef
  have hFtake : F = t.take F.length := by
    rw [hfU]
    exact takeLoop_eq_take (upperOk hi) t
  have hFsorted : F.Pairwise (fun a b => blt a.1 b.1 = true) := h.filter _
  rw [revRangeRawEntries, revRangeStartIdx_eq h]
  by_cases hn : F.length = 0
  · rw [if_pos hn]
    have hFnil : F = [] := List.length_eq_zero.mp hn
    have : t.filter (fun e => inBounds lo hi e.1) = [] := by
      rw [List.filter_eq_nil_iff]
      intro x hx
      have hux : upperOk hi x.1 = false := by
        cases hu : upperOk hi x.1 with
        | false => rfl
        | true =>
          have : x ∈ F := by
            rw [hFdef, List.mem_filter]
            exact ⟨hx, hu⟩
          rw [hFnil] at this
          exact absurd this (List.not_mem_nil x)
      simp [inBounds, hux]
    rw [this]
    rfl
  · rw [if_neg hn]
    have hlen_le : F.length ≤ t.length := List.length_filter_le _ t
    have hlt : F.length - 1 < t.length := by omega
    show revTakeLoop t (lowerOk lo) (F.length - 1)
      = (t.filter (fun e => inBounds lo hi e.1)).reverse
    rw [revTakeLoop_eq hlt]
    have hsucc : F.length - 1 + 1 = F.length := by omega
    rw [hsucc, ← hFtake]
    have hrevsorted : F.reverse.Pairwise
        (fun a b => lowerOk lo b.1 = true → lowerOk lo a.1 = true) := by
      rw [List.pairwise_reverse]
      exact hFsorted.imp (fun hab hpb => lowerOk_mono hab hpb)
    rw [takeLoop_eq_filter hrevsorted, List.filter_reverse, hFdef,
      List.filter_filter]
    rfl

/-! ## Point lookups after mutation sequences -/

theorem getRaw_cons (e : Entry) (rest : Table) (k : Bytes) :
    getRaw (e :: rest) k = if e.1 = k then some e.2 else getRaw rest k := by
  by_cases h : e.1 = k
  · rw [if_pos h]
    simp only [getRaw, List.find?]
    rw [beq_iff_eq.mpr h]
  · rw [if_neg h]
    simp only [getRaw, List.find?]
    rw [beq_eq_false_iff_ne.mpr h]

theorem getRaw_putRaw (t : Table) (a v k : Bytes) :
    getRaw (putRaw t a v) k = if a = k then some v else getRaw t k := by
  induction t with
  | nil =>
    show getRaw [(a, v)] k = _
    rw [getRaw_cons]
  | cons e rest ih =>
    by_cases h1 : blt e.1 a = true
    · have hput : putRaw (e :: rest) a v = e :: putRaw rest a v := by
        rw [putRaw, if_pos h1]
      rw [hput, getRaw_cons]
      by_cases h2 : e.1 = k
      · have hak : ¬ a = k := by
          intro hak
          rw [hak, ← h2, blt_irrefl] at h1
          exact Bool.false_ne_true h1
        rw [if_pos h2, if_neg hak, getRaw_cons, if_pos h2]
      · rw [if_neg h2, ih, getRaw_cons, if_neg h2]
    · by_cases h3 : e.1 = a
      · have hput : putRaw (e :: rest) a v = (a, v) :: rest := by
          rw [putRaw, if_neg h1, if_pos h3]
        rw [hput, getRaw_cons]
        by_cases hak : a = k
        · simp [hak]
        · rw [if_neg hak, if_neg hak, getRaw_cons]
          have h2 : ¬ e.1 = k := fun hk => hak (h3.symm.trans hk)
          rw [if_neg h2]
      · have hput : putRaw (e :: rest) a v = (a, v) :: e :: rest := by
          rw [putRaw, if_neg h1, if_neg h3]
        rw [hput, getRaw_cons]

theorem getRaw_delRaw (t : Table) (a k : Bytes) :
    getRaw (delRaw t a) k = if a = k then none else getRaw t k := by
  induction t with
  | nil => by_cases hak : a = k <;> simp [delRaw, getRaw, hak]
  | cons e rest ih =>
    by_cases he : e.1 = a
    · have hstep : delRaw (e :: rest) a = delRaw rest a := by
        simp [delRaw, List.filter_cons, he]
      rw [hstep, ih, getRaw_cons]
      by_cases hak : a = k
      · rw [if_pos hak, if_pos hak]
      · have h2 : ¬ e.1 = k := fun hk => hak (he.symm.trans hk)
        rw [if_neg hak, if_neg hak, if_neg h2]
    · have hstep : delRaw (e :: rest) a = e :: delRaw rest a := by
        simp [delRaw, List.filter_cons, he]
      rw [hstep, getRaw_cons, getRaw_cons]
      by_cases h2 : e.1 = k
      · have hak : ¬ a = k := fun hk => he (h2.trans hk.symm)
        rw [if_pos h2, if_neg hak, if_pos h2]
      · rw [if_neg h2, if_neg h2, ih]

/-- One mutating call of the write transaction: `put` or `delete`, both
through the byte-identity codec. -/
inductive DbOp where
  | put (k v : Bytes)
  | del (k : Bytes)

/-- Apply one mutating call to a table. -/
def applyOp (t : Table) : DbOp → Table
  | .put k v => (PolyDatabase.putCore bytesCodec bytesCodec t k v).1
  | .del k => (PolyDatabase.deleteCore bytesCodec t k).1

/-- Apply a sequence of mutating calls in order. -/
def applyOps (t : Table) (ops : List DbOp) : Table := ops.foldl applyOp t

/-- What one call does to the binding of key `k`: `none` when untouched,
`some none` when deleted, `some (some v)` when overwritten with `v`. -/
def writeOf (op : DbOp) (k : Bytes) : Option (Option Bytes) :=
  match op with
  | .put k' v => if k' = k then some (some v) else none
  | .del k' => if k' = k then some none else none

/-- The last write to key `k` in a call sequence (later calls win). -/
def lastWrite : List DbOp → Bytes → Option (Option Bytes)
  | [], _ => none
  | op :: ops, k =>
    match lastWrite ops k with
    | some w => some w
    | none => writeOf op k

/-- Overlay a possible write over a previous binding. -/
def overlay (w : Option (Option Bytes)) (dflt : Option Bytes) : Option Bytes :=
  match w with
  | some w => w
  | none => dflt

theorem getRaw_applyOp (t : Table) (op : DbOp) (k : Bytes) :
    getRaw (applyOp t op) k = overlay (writeOf op k) (getRaw t k) := by
  cases op with
  | put k' v =>
    have : applyOp t (.put k' v) = putRaw t k' v := rfl
    rw [this, getRaw_putRaw]
    by_cases hk : k' = k <;> simp [writeOf, overlay, hk]
  | del k' =>
    have hstep : applyOp t (.del k') =
        match getRaw t k' with
        | some _ => delRaw t k'
        | none => t := by
      cases hg : getRaw t k' <;>
        simp [applyOp, PolyDatabase.deleteCore, bytesCodec, hg]
    rw [hstep]
    cases hg : getRaw t k' with
    | some v =>
      rw [getRaw_delRaw]
      by_cases hk : k' = k <;> simp [writeOf, overlay, hk]
    | none =>
      by_cases hk : k' = k
      · subst hk
        simp [writeOf, overlay, hg]
      · simp [writeOf, overlay, hk]

theorem getRaw_applyOps (ops : List DbOp) (t : Table) (k : Bytes) :
    getRaw (applyOps t ops) k = overlay (lastWrite ops k) (getRaw t k) := by
  induction ops generalizing t with
  | nil => rfl
  | cons op ops ih =>
    have hstep : applyOps t (op :: ops) = applyOps (applyOp t op) ops := rfl
    rw [hstep, ih, getRaw_applyOp]
    cases hlw : lastWrite ops k with
    | some w => simp [lastWrite, hlw, overlay]
    | none => simp [lastWrite, hlw, overlay]

/-- Through the byte-identity codec, `get`'s body is exactly the engine
lookup. -/
theorem getCore_bytes (t : Table) (k : Bytes) :
    PolyDatabase.getCore bytesCodec bytesCodec t k = .ok (getRaw t k) := by
  simp only [PolyDatabase.getCore, bytesCodec, getResultTranslate, mdbGet]
  cases hg : getRaw t k <;> simp [MdbError.isNotFound, hg]

/-! ## Neighbor queries -/

/-- Through the byte-identity codec the entry decode is the identity. -/
theorem decodeEntryOpt_bytes (o : Option Entry) :
    decodeEntryOpt bytesCodec bytesCodec o = .ok o := by
  cases o with
  | none => rfl
  | some e => rfl

theorem cursorPrev_take {t : Table} {i : Nat} (h : i ≤ t.length) :
    cursorPrev t i = (t.take i).getLast? := by
  by_cases hi : i = 0
  · simp [cursorPrev, hi]
  · rw [cursorPrev, if_neg hi]
    have hlen : (t.take i).length = i := by
      rw [List.length_take]
      omega
    rw [List.getLast?_eq_getElem?, hlen, List.getElem?_take,
      if_pos (by omega), ← List.get?_eq_getElem? ..]

theorem cursorEntry_drop (t : Table) (i : Nat) :
    cursorEntry t i = (t.drop i).head? := by
  rw [cursorEntry, List.get?_eq_getElem?, List.head?_eq_getElem?,
    List.getElem?_drop]
  simp

/-- The last entry of a sorted list is at or above every entry. -/
theorem sorted_getLast?_max {l : List Entry} {e : Entry}
    (hs : l.Pairwise (fun a b => blt a.1 b.1 = true)) (h : l.getLast? = some e) :
    ∀ x ∈ l, blt e.1 x.1 = false := by
  induction l with
  | nil => simp at h
  | cons a rest ih =>
    rw [List.pairwise_cons] at hs
    obtain ⟨ha, hrest⟩ := hs
    intro x hx
    cases rest with
    | nil =>
      simp at h hx
      rw [hx, ← h, blt_irrefl]
    | cons b rest' =>
      rw [List.getLast?_cons_cons] at h
      rcases List.mem_cons.mp hx with rfl | hx'
      · have hmem : e ∈ b :: rest' := List.mem_of_mem_getLast? h
        exact blt_asymm (ha e hmem)
      · exact ih hrest h x hx'

/-- The head entry of a sorted list is at or below every entry. -/
theorem sorted_head?_min {l : List Entry} {e : Entry}
    (hs : l.Pairwise (fun a b => blt a.1 b.1 = true)) (h : l.head? = some e) :
    ∀ x ∈ l, blt x.1 e.1 = false := by
  cases l with
  | nil => simp at h
  | cons a rest =>
    rw [List.pairwise_cons] at hs
    obtain ⟨ha, _⟩ := hs
    simp only [List.head?_cons, Option.some.injEq] at h
    intro x hx
    rcases List.mem_cons.mp hx with rfl | hx'
    · rw [← h, blt_irrefl]
    · rw [← h]
      exact blt_asymm (ha x hx')

theorem rangeStartIdx_le_length (t : Table) (lo : RangeBound) :
    rangeStartIdx t lo ≤ t.length := by
  cases lo with
  | unbounded => exact Nat.zero_le _
  | included b => exact seekGE_le_length t b
  | excluded b =>
    simp only [rangeStartIdx]
    cases hce : cursorEntry t (seekGE t b) with
    | none => exact seekGE_le_length t b
    | some e =>
      have hlt : seekGE t b < t.length := by
        by_contra hge
        rw [cursorEntry, List.get?_eq_none.mpr (Nat.le_of_not_lt hge)] at hce
        exact Option.noConfusion hce
      by_cases he : e.1 = b <;> simp [he] <;> omega

/-- The single backward step of `get_lower_than` lands on the last entry
strictly below the key. -/
theorem getLowerThanCore_bytes {t : Table} (k : Bytes) (h : SortedTable t) :
    PolyDatabase.getLowerThanCore bytesCodec bytesCodec t k
      = .ok ((t.filter (fun e => blt e.1 k)).getLast?) := by
  show decodeEntryOpt bytesCodec bytesCodec (cursorPrev t (seekGE t k)) = _
  rw [decodeEntryOpt_bytes, cursorPrev_take (seekGE_le_length t k),
    (seekGE_split h).1]

/-- `get_greater_than_or_equal_to` is the landed entry of the seek. -/
theorem getGreaterThanOrEqualToCore_bytes {t : Table} (k : Bytes)
    (h : SortedTable t) :
    PolyDatabase.getGreaterThanOrEqualToCore bytesCodec bytesCodec t k
      = .ok ((t.filter (fun e => !(blt e.1 k))).head?) := by
  show decodeEntryOpt bytesCodec bytesCodec (cursorEntry t (seekGE t k)) = _
  rw [decodeEntryOpt_bytes, cursorEntry_drop, (seekGE_split h).2]

/-- The landed-key adjustment of `get_lower_than_or_equal_to` positions one
step before the first entry strictly above the key. -/
theorem getLowerThanOrEqualToCore_bytes {t : Table} (k : Bytes)
    (h : SortedTable t) :
    PolyDatabase.getLowerThanOrEqualToCore bytesCodec bytesCodec t k
      = .ok ((t.filter (fun e => !(blt k e.1))).getLast?) := by
  have hentry :
      (match cursorEntry t (seekGE t k) with
        | some e => if e.1 = k then some e else cursorPrev t (seekGE t k)
        | none => cursorPrev t (seekGE t k))
      = cursorPrev t (rangeStartIdx t (.excluded k)) := by
    cases hce : cursorEntry t (seekGE t k) with
    | none => simp [rangeStartIdx, hce]
    | some e =>
      show (if e.1 = k then some e else cursorPrev t (seekGE t k))
        = cursorPrev t (rangeStartIdx t (.excluded k))
      by_cases he : e.1 = k
      · rw [if_pos he]
        have hidx : rangeStartIdx t (.excluded k) = seekGE t k + 1 := by
          simp [rangeStartIdx, hce, he]
        rw [hidx, cursorPrev, if_neg (Nat.succ_ne_zero _), Nat.add_sub_cancel]
        exact hce.symm
      · simp [rangeStartIdx, hce, he]
  show decodeEntryOpt bytesCodec bytesCodec
      (match cursorEntry t (seekGE t k) with
        | some e => if e.1 = k then some e else cursorPrev t (seekGE t k)
        | none => cursorPrev t (seekGE t k)) = _
  rw [hentry, decodeEntryOpt_bytes,
    cursorPrev_take (rangeStartIdx_le_length t (.excluded k)),
    (rangeStartIdx_split (.excluded k) h).1]
  rfl

/-- The landed-key adjustment of `get_greater_than` positions on the first
entry strictly above the key. -/
theorem getGreaterThanCore_bytes {t : Table} (k : Bytes) (h : SortedTable t) :
    PolyDatabase.getGreaterThanCore bytesCodec bytesCodec t k
      = .ok ((t.filter (fun e => blt k e.1)).head?) := by
  have hentry :
      (match cursorEntry t (seekGE t k) with
        | some e => if blt k e.1 then some e else cursorNext t (seekGE t k)
        | none => none)
      = cursorEntry t (rangeStartIdx t (.excluded k)) := by
    cases hce : cursorEntry t (seekGE t k) with
    | none =>
      simp only [rangeStartIdx, hce]
    | some e =>
      cases hkb : blt k e.1 with
      | true =>
        have he : ¬ e.1 = k := by
          intro he
          rw [he, blt_irrefl] at hkb
          exact Bool.false_ne_true hkb
        simp [rangeStartIdx, hce, he, hkb]
      | false =>
        have he : e.1 = k := eq_of_not_blt (seekGE_landed hce) hkb
        have hidx : rangeStartIdx t (.excluded k) = seekGE t k + 1 := by
          simp [rangeStartIdx, hce, he]
        simp [hkb, hidx, cursorNext, cursorEntry]
  show decodeEntryOpt bytesCodec bytesCodec
      (match cursorEntry t (seekGE t k) with
        | some e => if blt k e.1 then some e else cursorNext t (seekGE t k)
        | none => none) = _
  rw [hentry, decodeEntryOpt_bytes, cursorEntry_drop,
    (rangeStartIdx_split (.excluded k) h).2]
  rfl

/-! ## The deletion loop -/

/-- What remains of a suffix after the deletion loop has run over it: the
leading block of in-bound entries is gone. -/
def dropLoop (p : Bytes → Bool) : List Entry → List Entry
  | [] => []
  | e :: rest => if p e.1 then dropLoop p rest else e :: rest

theorem dropLoop_eq_filter {p : Bytes → Bool} {l : List Entry}
    (h : l.Pairwise (fun a b => p b.1 = true → p a.1 = true)) :
    dropLoop p l = l.filter (fun e => !(p e.1)) := by
  induction l with
  | nil => rfl
  | cons e rest ih =>
    rw [List.pairwise_cons] at h
    obtain ⟨he, hrest⟩ := h
    cases hp : p e.1 with
    | true => simp [dropLoop, hp, List.filter_cons, ih hrest]
    | false =>
      have hall : rest.filter (fun e => !(p e.1)) = rest := by
        rw [List.filter_eq_self]
        intro x hx
        cases hpx : p x.1 with
        | false => simp [hpx]
        | true => rw [he x hx hpx] at hp; simp at hp
      simp [dropLoop, hp, List.filter_cons, hall]

theorem eraseIdx_append_cons (pre : List Entry) (e : Entry) (suf : List Entry) :
    (pre ++ e :: suf).eraseIdx pre.length = pre ++ suf := by
  induction pre with
  | nil => rfl
  | cons a pre ih => simp [List.eraseIdx, ih]

theorem cursorEntry_append (pre suf : List Entry) :
    cursorEntry (pre ++ suf) pre.length = suf.head? := by
  rw [cursorEntry_drop, List.drop_left]

theorem deleteRangeLoop_none {K : Type} (kc : Codec K) (hi : RangeBound)
    {t : Table} {i c : Nat} (h : cursorEntry t i = none) :
    deleteRangeLoop kc hi t i c = (t, c) := by
  rw [deleteRangeLoop]
  split
  · rename_i e heq
    rw [h] at heq
    exact Option.noConfusion heq
  · rfl

theorem deleteRangeLoop_stop {K : Type} (kc : Codec K) (hi : RangeBound)
    {t : Table} {i c : Nat} {e : Entry} (h : cursorEntry t i = some e)
    (hup : upperOk hi e.1 = false) :
    deleteRangeLoop kc hi t i c = (t, c) := by
  rw [deleteRangeLoop]
  split
  · rename_i e' heq
    rw [h] at heq
    obtain rfl := Option.some.inj heq
    rw [if_neg (by simp [hup])]
  · rfl

theorem deleteRangeLoop_step {K : Type} (kc : Codec K) (hi : RangeBound)
    {t : Table} {i c : Nat} {e : Entry} (h : cursorEntry t i = some e)
    (hup : upperOk hi e.1 = true) :
    deleteRangeLoop kc hi t i c = deleteRangeLoop kc hi (t.eraseIdx i) i (c + 1) := by
  rw [deleteRangeLoop]
  split
  · rename_i e' heq
    rw [h] at heq
    obtain rfl := Option.some.inj heq
    rw [if_pos hup]
  · rename_i heq
    rw [h] at heq
    exact Option.noConfusion heq

/-- The deletion loop started at the boundary between `pre` and `suf`
deletes exactly the in-bound prefix of `suf` and counts it, regardless of
whether the keys it visits decode. -/
theorem deleteRangeLoop_eq {K : Type} (kc : Codec K) (hi : RangeBound)
    (pre suf : List Entry) (c : Nat) :
    deleteRangeLoop kc hi (pre ++ suf) pre.length c
      = (pre ++ dropLoop (upperOk hi) suf,
          c + (takeLoop (upperOk hi) suf).length) := by
  induction suf generalizing c with
  | nil =>
    rw [deleteRangeLoop_none kc hi (by rw [cursorEntry_append]; rfl)]
    simp [dropLoop, takeLoop]
  | cons e suf ih =>
    have hce : cursorEntry (pre ++ e :: suf) pre.length = some e := by
      rw [cursorEntry_append]
      rfl
    cases hup : upperOk hi e.1 with
    | true =>
      rw [deleteRangeLoop_step kc hi hce hup, eraseIdx_append_cons, ih]
      simp only [dropLoop, takeLoop, hup, if_true, List.length_cons]
      rw [Prod.mk.injEq]
      exact ⟨rfl, by omega⟩
    | false =>
      rw [deleteRangeLoop_stop kc hi hce hup]
      simp [dropLoop, takeLoop, hup]

/-- The deletion loop, started at the interval's start position on a sorted
table, removes exactly the in-interval entries, counting each one. -/
theorem deleteRangeLoop_split {K : Type} (kc : Codec K) {t : Table}
    (lo hi : RangeBound) (h : SortedTable t) :
    deleteRangeLoop kc hi t (rangeStartIdx t lo) 0
      = (t.filter (fun e => !(inBounds lo hi e.1)),
          (t.filter (fun e => inBounds lo hi e.1)).length) := by
  set s := rangeStartIdx t lo with hs
  have hsle : s ≤ t.length := rangeStartIdx_le_length t lo
  have hsplit := rangeStartIdx_split lo h
  have hlen : (t.take s).length = s := by
    rw [List.length_take]
    omega
  have key := deleteRangeLoop_eq kc hi (t.take s) (t.drop s) 0
  rw [List.take_append_drop, hlen] at key
  rw [key]
  have hcount : takeLoop (upperOk hi) (t.drop s)
      = t.filter (fun e => inBounds lo hi e.1) := by
    have hrr : rangeRawEntries t lo hi = takeLoop (upperOk hi) (t.drop s) := rfl
    rw [← hrr, rangeRawEntries_eq_filter h]
  have hdrop2 : dropLoop (upperOk hi) (t.drop s)
      = (t.filter (fun e => lowerOk lo e.1)).filter (fun e => !(upperOk hi e.1)) := by
    rw [hsplit.2]
    exact dropLoop_eq_filter ((h.filter _).imp (fun hab hpb => upperOk_antimono hab hpb))
  rw [hcount, hdrop2, hsplit.1, Prod.mk.injEq]
  constructor
  · conv_rhs => rw [← List.take_append_drop s t, List.filter_append]
    congr 1
    · rw [hsplit.1]
      symm
      rw [List.filter_eq_self]
      intro x hx
      have hxl : lowerOk lo x.1 = false := by
        have hmem := (List.mem_filter.mp hx).2
        simpa using hmem
      simp [inBounds, hxl]
    · rw [hsplit.2]
      apply List.filter_congr
      intro x hx
      have hxl : lowerOk lo x.1 = true := by
        have hmem := (List.mem_filter.mp hx).2
        simpa using hmem
      simp [inBounds, hxl]
  · omega

/-- The encoded form of a typed bound under the byte-identity codec. -/
def tbEncode : TypedBound Bytes → RangeBound
  | .included b => .included b
  | .excluded b => .excluded b
  | .unbounded => .unbounded

theorem encodeBound_bytes (tb : TypedBound Bytes) :
    encodeBound bytesCodec tb = .ok (tbEncode tb) := by
  cases tb <;> rfl

/-- `delete_range`'s body, for any key codec whose bound encoding succeeds:
it deletes exactly the in-interval entries and returns their count, with no
error — whether or not the visited keys decode. -/
theorem deleteRangeCore_eq {K : Type} (kc : Codec K) {t : Table}
    {lo hi : TypedBound K} {lob hib : RangeBound} (h : SortedTable t)
    (hlo : encodeBound kc lo = .ok lob) (hhi : encodeBound kc hi = .ok hib) :
    PolyDatabase.deleteRangeCore kc t lo hi
      = (t.filter (fun e => !(inBounds lob hib e.1)),
          .ok (t.filter (fun e => inBounds lob hib e.1)).length) := by
  rw [PolyDatabase.deleteRangeCore, hlo, hhi]
  show ((deleteRangeLoop kc hib t (rangeStartIdx t lob) 0).1,
      Except.ok (deleteRangeLoop kc hib t (rangeStartIdx t lob) 0).2)
    = _
  rw [deleteRangeLoop_split kc lob hib h]

/-! ## Remaining helpers -/

/-- A lookup on a filtered table misses every key the filter rejects. -/
theorem getRaw_filter_none {t : Table} {p : Entry → Bool} {k : Bytes}
    (h : ∀ e, e.1 = k → p e = false) :
    getRaw (t.filter p) k = none := by
  rw [getRaw]
  have hfind : (t.filter p).find? (fun e => e.1 == k) = none := by
    rw [List.find?_eq_none]
    intro x hx hbeq
    have hpx := (List.mem_filter.mp hx).2
    rw [h x (beq_iff_eq.mp hbeq)] at hpx
    exact Bool.false_ne_true hpx
  rw [hfind]

/-- A strict append whose key is not greater than some present key fails
with the engine's key-order violation. -/
theorem appendRaw_fail {t : Table} {k v : Bytes} (h : SortedTable t)
    {e : Entry} (he : e ∈ t) (hk : blt e.1 k = false) :
    appendRaw t k v = .error .keyExist := by
  cases hgl : t.getLast? with
  | none =>
    rw [List.getLast?_eq_none_iff] at hgl
    rw [hgl] at he
    exact absurd he (List.not_mem_nil e)
  | some l =>
    have hle := sorted_getLast?_max h hgl
    have hlk : blt l.1 k = false := by
      cases hlk : blt l.1 k with
      | false => rfl
      | true =>
        cases hel : blt e.1 l.1 with
        | true => rw [blt_trans hel hlk] at hk; exact absurd hk (by simp)
        | false =>
          have heq : e.1 = l.1 := eq_of_not_blt hel (hle e he)
          rw [heq, hlk] at hk
          exact absurd hk (by simp)
    simp [appendRaw, hgl, hlk]

/-- The decoded-first query answers `None` exactly on the empty table:
a nonempty table yields a decoded entry or a decoding error, never `None`. -/
theorem firstCore_ok_none_iff {K V : Type} (kc : Codec K) (dc : Codec V)
    (t : Table) :
    PolyDatabase.firstCore kc dc t = .ok none ↔ t = [] := by
  cases t with
  | nil => simp [PolyDatabase.firstCore, decodeEntryOpt]
  | cons e rest =>
    simp only [PolyDatabase.firstCore, List.head?_cons]
    constructor
    · intro h
      rw [decodeEntryOpt] at h
      cases hd : decodeEntry kc dc e with
      | ok kv => rw [hd] at h; simp at h
      | error err => rw [hd] at h; simp at h
    · intro h
      exact List.noConfusion h

/-! ## The claims -/

/-- C1: after any sequence of put/delete calls in a write transaction,
`get` in a transaction seeing the resulting state returns `Some v` with `v`
the last value put for the key (overwrite semantics), and `None` for any
key never written or deleted; the engine's not-found result is translated
to `None` while any other engine failure propagates unchanged as an error. -/
theorem claim_C1_get_put_overwrite :
    (∀ (db : PolyDatabase) (env : Nat) (ops : List DbOp) (k : Bytes),
      db.env_ident = env →
      db.get ⟨env, applyOps [] ops⟩ bytesCodec bytesCodec k
        = .ok (.ok (overlay (lastWrite ops k) none)))
    ∧ (∀ (V : Type) (dc : Codec V),
        getResultTranslate dc (.error .notFound) = .ok none)
    ∧ (∀ (V : Type) (dc : Codec V) (e : MdbError), e.isNotFound = false →
        getResultTranslate dc (.error e) = .error (.mdb e)) := by
  refine ⟨?_, ?_, ?_⟩
  · intro db env ops k henv
    rw [PolyDatabase.get, if_pos (by simp [envOk, henv])]
    show Checked.ok (PolyDatabase.getCore bytesCodec bytesCodec (applyOps [] ops) k) = _
    rw [getCore_bytes, getRaw_applyOps]
    rfl
  · intro V dc
    rfl
  · intro V dc e he
    simp [getResultTranslate, he]

/-- Witness for C1 at a concrete call sequence and a concrete engine
failure. -/
theorem claim_C1_get_put_overwrite_witness :
    PolyDatabase.get ⟨7, 3⟩ ⟨7, applyOps [] [.put [1] [2], .put [1] [9], .del [4]]⟩
        bytesCodec bytesCodec [1] = .ok (.ok (some [9]))
    ∧ getResultTranslate bytesCodec (.error (.other 5)) = .error (.mdb (.other 5)) := by
  constructor
  · have h := claim_C1_get_put_overwrite.1 ⟨7, 3⟩ 7
      [.put [1] [2], .put [1] [9], .del [4]] [1] rfl
    rw [h]
    rfl
  · exact claim_C1_get_put_overwrite.2.2 Bytes bytesCodec (.other 5) rfl

/-- C2: `range` encodes each bound once through the key codec and returns
an iterator that yields exactly the entries of the interval under the
bounds' inclusivity, in increasing byte-lexicographic key order, while
`rev_range` yields the same set in the reverse order. -/
theorem claim_C2_range_law :
    ∀ (K : Type) (kc : Codec K) (db : PolyDatabase) (txn : RoTxn)
      (lo hi : TypedBound K) (lob hib : RangeBound),
      envOk db txn = true → SortedTable txn.table →
      encodeBound kc lo = .ok lob → encodeBound kc hi = .ok hib →
      db.range txn kc lo hi = .ok (.ok ⟨txn.table, lob, hib⟩)
      ∧ RoRange.rawEntries ⟨txn.table, lob, hib⟩
          = txn.table.filter (fun e => inBounds lob hib e.1)
      ∧ SortedTable (RoRange.rawEntries ⟨txn.table, lob, hib⟩)
      ∧ db.revRange txn kc lo hi = .ok (.ok ⟨txn.table, lob, hib⟩)
      ∧ RoRevRange.rawEntries ⟨txn.table, lob, hib⟩
          = (txn.table.filter (fun e => inBounds lob hib e.1)).reverse := by
  intro K kc db txn lo hi lob hib henv hsort hlo hhi
  have hfwd : RoRange.rawEntries ⟨txn.table, lob, hib⟩
      = txn.table.filter (fun e => inBounds lob hib e.1) := by
    rw [RoRange.rawEntries]
    exact rangeRawEntries_eq_filter hsort
  refine ⟨?_, hfwd, ?_, ?_, ?_⟩
  · rw [PolyDatabase.range, if_pos henv, PolyDatabase.rangeCore, hlo, hhi]
  · rw [hfwd]
    exact hsort.filter _
  · rw [PolyDatabase.revRange, if_pos henv, PolyDatabase.revRangeCore, hlo, hhi]
  · rw [RoRevRange.rawEntries]
    exact revRangeRawEntries_eq hsort

/-- Witness for C2: the source's doctest table keyed `{0, 35, 42, 68}` with
the interval `35..=42`. -/
theorem claim_C2_range_law_witness :
    PolyDatabase.range ⟨1, 0⟩
        ⟨1, [([0], [0]), ([35], [35]), ([42], [42]), ([68], [68])]⟩
        bytesCodec (.included [35]) (.included [42])
      = .ok (.ok ⟨[([0], [0]), ([35], [35]), ([42], [42]), ([68], [68])],
          .included [35], .included [42]⟩)
    ∧ RoRange.rawEntries ⟨[([0], [0]), ([35], [35]), ([42], [42]), ([68], [68])],
          .included [35], .included [42]⟩ = [([35], [35]), ([42], [42])]
    ∧ RoRevRange.rawEntries ⟨[([0], [0]), ([35], [35]), ([42], [42]), ([68], [68])],
          .included [35], .included [42]⟩ = [([42], [42]), ([35], [35])] := by
  have h := claim_C2_range_law Bytes bytesCodec ⟨1, 0⟩
    ⟨1, [([0], [0]), ([35], [35]), ([42], [42]), ([68], [68])]⟩
    (.included [35]) (.included [42]) (.included [35]) (.included [42])
    (by decide) (by decide) rfl rfl
  exact ⟨h.1, by rw [h.2.1]; rfl, by rw [h.2.2.2.2]; rfl⟩

/-- C3: `delete_range` returns the number of entries whose key lay in the
interval before the call; afterwards none of those keys is retrievable by
`get`, and the entries outside the interval are exactly the ones left, in
unchanged order. -/
theorem claim_C3_delete_range_count :
    ∀ (db : PolyDatabase) (txn : RoTxn) (lo hi : TypedBound Bytes),
      envOk db txn = true → SortedTable txn.table →
      db.deleteRange txn bytesCodec lo hi
        = .ok (txn.table.filter
              (fun e => !(inBounds (tbEncode lo) (tbEncode hi) e.1)),
            .ok (txn.table.filter
              (fun e => inBounds (tbEncode lo) (tbEncode hi) e.1)).length)
      ∧ ∀ k, inBounds (tbEncode lo) (tbEncode hi) k = true →
          PolyDatabase.getCore bytesCodec bytesCodec
            (txn.table.filter
              (fun e => !(inBounds (tbEncode lo) (tbEncode hi) e.1))) k
            = .ok none := by
  intro db txn lo hi henv hsort
  constructor
  · rw [PolyDatabase.deleteRange, if_pos henv,
      deleteRangeCore_eq bytesCodec hsort (encodeBound_bytes lo)
        (encodeBound_bytes hi)]
  · intro k hk
    rw [getCore_bytes, getRaw_filter_none]
    intro e he
    rw [he, hk]
    rfl

/-- Witness for C3: the source's doctest — `delete_range(35..=42)` over the
table keyed `{0, 35, 42, 68}` returns 2 and leaves `{0, 68}`, and `get 35`
afterwards finds nothing. -/
theorem claim_C3_delete_range_count_witness :
    PolyDatabase.deleteRange ⟨1, 0⟩
        ⟨1, [([0], [0]), ([35], [35]), ([42], [42]), ([68], [68])]⟩
        bytesCodec (.included [35]) (.included [42])
      = .ok ([([0], [0]), ([68], [68])], .ok 2)
    ∧ PolyDatabase.getCore bytesCodec bytesCodec [([0], [0]), ([68], [68])] [35]
      = .ok none := by
  have h := claim_C3_delete_range_count ⟨1, 0⟩
    ⟨1, [([0], [0]), ([35], [35]), ([42], [42]), ([68], [68])]⟩
    (.included [35]) (.included [42]) (by decide) (by decide)
  constructor
  · rw [h.1]
    rfl
  · have h2 := h.2 [35] (by decide)
    exact h2

/-- On a sorted table, the last entry of a filtered sub-table is the
greatest entry satisfying the predicate, and its absence means no entry
satisfies it. -/
theorem filter_getLast?_greatest {t : Table} (h : SortedTable t)
    (p : Bytes → Bool) :
    (∀ e, (t.filter (fun e => p e.1)).getLast? = some e →
        e ∈ t ∧ p e.1 = true ∧ ∀ x ∈ t, p x.1 = true → blt e.1 x.1 = false)
    ∧ ((t.filter (fun e => p e.1)).getLast? = none →
        ∀ x ∈ t, p x.1 = false) := by
  constructor
  · intro e he
    have hmem := List.mem_of_mem_getLast? he
    obtain ⟨hmt, hpe⟩ := List.mem_filter.mp hmem
    refine ⟨hmt, hpe, ?_⟩
    intro x hx hpx
    exact sorted_getLast?_max (h.filter _) he x
      (List.mem_filter.mpr ⟨hx, hpx⟩)
  · intro hnone x hx
    rw [List.getLast?_eq_none_iff] at hnone
    cases hpx : p x.1 with
    | false => rfl
    | true =>
      have : x ∈ t.filter (fun e => p e.1) := List.mem_filter.mpr ⟨hx, hpx⟩
      rw [hnone] at this
      exact absurd this (List.not_mem_nil x)

/-- On a sorted table, the head entry of a filtered sub-table is the least
entry satisfying the predicate, and its absence means no entry satisfies
it. -/
theorem filter_head?_least {t : Table} (h : SortedTable t) (p : Bytes → Bool) :
    (∀ e, (t.filter (fun e => p e.1)).head? = some e →
        e ∈ t ∧ p e.1 = true ∧ ∀ x ∈ t, p x.1 = true → blt x.1 e.1 = false)
    ∧ ((t.filter (fun e => p e.1)).head? = none →
        ∀ x ∈ t, p x.1 = false) := by
  constructor
  · intro e he
    have hmem : e ∈ t.filter (fun e => p e.1) := List.mem_of_mem_head? he
    obtain ⟨hmt, hpe⟩ := List.mem_filter.mp hmem
    refine ⟨hmt, hpe, ?_⟩
    intro x hx hpx
    exact sorted_head?_min (h.filter _) he x
      (List.mem_filter.mpr ⟨hx, hpx⟩)
  · intro hnone x hx
    rw [List.head?_eq_none_iff] at hnone
    cases hpx : p x.1 with
    | false => rfl
    | true =>
      have : x ∈ t.filter (fun e => p e.1) := List.mem_filter.mpr ⟨hx, hpx⟩
      rw [hnone] at this
      exact absurd this (List.not_mem_nil x)

/-- C4: each neighbor query answers with the greatest entry strictly below
(`get_lower_than`), the greatest at or below
(`get_lower_than_or_equal_to`), the least strictly above
(`get_greater_than`) or the least at or above
(`get_greater_than_or_equal_to`) the encoded key, under byte-lexicographic
comparison, and `None` when no such neighbor exists. -/
theorem claim_C4_neighbor_queries :
    ∀ (db : PolyDatabase) (txn : RoTxn) (k : Bytes),
      envOk db txn = true → SortedTable txn.table →
      (db.getLowerThan txn bytesCodec bytesCodec k
          = .ok (.ok ((txn.table.filter (fun e => blt e.1 k)).getLast?))
        ∧ (∀ e, (txn.table.filter (fun e => blt e.1 k)).getLast? = some e →
            e ∈ txn.table ∧ blt e.1 k = true
              ∧ ∀ x ∈ txn.table, blt x.1 k = true → blt e.1 x.1 = false)
        ∧ ((txn.table.filter (fun e => blt e.1 k)).getLast? = none →
            ∀ x ∈ txn.table, blt x.1 k = false))
      ∧ (db.getLowerThanOrEqualTo txn bytesCodec bytesCodec k
          = .ok (.ok ((txn.table.filter (fun e => !(blt k e.1))).getLast?))
        ∧ (∀ e, (txn.table.filter (fun e => !(blt k e.1))).getLast? = some e →
            e ∈ txn.table ∧ blt k e.1 = false
              ∧ ∀ x ∈ txn.table, blt k x.1 = false → blt e.1 x.1 = false)
        ∧ ((txn.table.filter (fun e => !(blt k e.1))).getLast? = none →
            ∀ x ∈ txn.table, blt k x.1 = true))
      ∧ (db.getGreaterThan txn bytesCodec bytesCodec k
          = .ok (.ok ((txn.table.filter (fun e => blt k e.1)).head?))
        ∧ (∀ e, (txn.table.filter (fun e => blt k e.1)).head? = some e →
            e ∈ txn.table ∧ blt k e.1 = true
              ∧ ∀ x ∈ txn.table, blt k x.1 = true → blt x.1 e.1 = false)
        ∧ ((txn.table.filter (fun e => blt k e.1)).head? = none →
            ∀ x ∈ txn.table, blt k x.1 = false))
      ∧ (db.getGreaterThanOrEqualTo txn bytesCodec bytesCodec k
          = .ok (.ok ((txn.table.filter (fun e => !(blt e.1 k))).head?))
        ∧ (∀ e, (txn.table.filter (fun e => !(blt e.1 k))).head? = some e →
            e ∈ txn.table ∧ blt e.1 k = false
              ∧ ∀ x ∈ txn.table, blt x.1 k = false → blt x.1 e.1 = false)
        ∧ ((txn.table.filter (fun e => !(blt e.1 k))).head? = none →
            ∀ x ∈ txn.table, blt x.1 k = true)) := by
  intro db txn k henv hsort
  have hb : ∀ (x : Bytes), (!(blt k x)) = true ↔ blt k x = false := by
    intro x
    cases blt k x <;> simp
  have hb2 : ∀ (x : Bytes), (!(blt x k)) = true ↔ blt x k = false := by
    intro x
    cases blt x k <;> simp
  refine ⟨⟨?_, ?_, ?_⟩, ⟨?_, ?_, ?_⟩, ⟨?_, ?_, ?_⟩, ⟨?_, ?_, ?_⟩⟩
  · rw [PolyDatabase.getLowerThan, if_pos henv,
      getLowerThanCore_bytes k hsort]
  · intro e he
    exact (filter_getLast?_greatest hsort (fun x => blt x k)).1 e he
  · exact (filter_getLast?_greatest hsort (fun x => blt x k)).2
  · rw [PolyDatabase.getLowerThanOrEqualTo, if_pos henv,
      getLowerThanOrEqualToCore_bytes k hsort]
  · intro e he
    obtain ⟨h1, h2, h3⟩ :=
      (filter_getLast?_greatest hsort (fun x => !(blt k x))).1 e he
    exact ⟨h1, (hb e.1).mp h2, fun x hx hpx => h3 x hx ((hb x.1).mpr hpx)⟩
  · intro hnone x hx
    have := (filter_getLast?_greatest hsort (fun x => !(blt k x))).2 hnone x hx
    cases hkx : blt k x.1 with
    | true => rfl
    | false => rw [hkx] at this; exact absurd this (by simp)
  · rw [PolyDatabase.getGreaterThan, if_pos henv,
      getGreaterThanCore_bytes k hsort]
  · intro e he
    exact (filter_head?_least hsort (fun x => blt k x)).1 e he
  · exact (filter_head?_least hsort (fun x => blt k x)).2
  · rw [PolyDatabase.getGreaterThanOrEqualTo, if_pos henv,
      getGreaterThanOrEqualToCore_bytes k hsort]
  · intro e he
    obtain ⟨h1, h2, h3⟩ :=
      (filter_head?_least hsort (fun x => !(blt x k))).1 e he
    exact ⟨h1, (hb2 e.1).mp h2, fun x hx hpx => h3 x hx ((hb2 x.1).mpr hpx)⟩
  · intro hnone x hx
    have := (filter_head?_least hsort (fun x => !(blt x k))).2 hnone x hx
    cases hkx : blt x.1 k with
    | true => rfl
    | false => rw [hkx] at this; exact absurd this (by simp)

/-- Witness for C4 on the source's doctest table keyed `{27, 42, 43}`. -/
theorem claim_C4_neighbor_queries_witness :
    PolyDatabase.getLowerThan ⟨2, 0⟩ ⟨2, [([27], [1]), ([42], [2]), ([43], [3])]⟩
        bytesCodec bytesCodec [43] = .ok (.ok (some ([42], [2])))
    ∧ PolyDatabase.getLowerThanOrEqualTo ⟨2, 0⟩
        ⟨2, [([27], [1]), ([42], [2]), ([43], [3])]⟩
        bytesCodec bytesCodec [43] = .ok (.ok (some ([43], [3])))
    ∧ PolyDatabase.getGreaterThan ⟨2, 0⟩
        ⟨2, [([27], [1]), ([42], [2]), ([43], [3])]⟩
        bytesCodec bytesCodec [43] = .ok (.ok none)
    ∧ PolyDatabase.getGreaterThanOrEqualTo ⟨2, 0⟩
        ⟨2, [([27], [1]), ([42], [2]), ([43], [3])]⟩
        bytesCodec bytesCodec [42] = .ok (.ok (some ([42], [2]))) := by
  have h43 := claim_C4_neighbor_queries ⟨2, 0⟩
    ⟨2, [([27], [1]), ([42], [2]), ([43], [3])]⟩ [43] (by decide) (by decide)
  have h42 := claim_C4_neighbor_queries ⟨2, 0⟩
    ⟨2, [([27], [1]), ([42], [2]), ([43], [3])]⟩ [42] (by decide) (by decide)
  refine ⟨?_, ?_, ?_, ?_⟩
  · rw [h43.1.1]; rfl
  · rw [h43.2.1.1]; rfl
  · rw [h43.2.2.1.1]; rfl
  · rw [h42.2.2.2.1]; rfl

/-- The full case analysis of `put_reserved`'s body under the byte-identity
key codec: the reservation inserts the entry first, then the writer runs,
then the remaining-space check decides the outcome. -/
theorem putReservedCore_bytes (t : Table) (kb : Bytes) (size : Nat)
    (w : WriterModel) :
    PolyDatabase.putReservedCore bytesCodec t kb size w
      = if size < w.bytes.length then
          (putRaw t kb (List.replicate size 0), .error (.io .writeZero))
        else
          match w.failCode with
          | some c =>
            (putRaw (putRaw t kb (List.replicate size 0)) kb
                (w.bytes ++ List.replicate (size - w.bytes.length) 0),
              .error (.io (.otherKind c)))
          | none =>
            if size - w.bytes.length = 0 then
              (putRaw (putRaw t kb (List.replicate size 0)) kb
                  (w.bytes ++ List.replicate (size - w.bytes.length) 0),
                .ok ())
            else
              (putRaw (putRaw t kb (List.replicate size 0)) kb
                  (w.bytes ++ List.replicate (size - w.bytes.length) 0),
                .error (.io .unexpectedEof)) := by
  show (match reservedWrite size w.bytes with
    | .error e => (putRaw t kb (List.replicate size 0), Except.error e)
    | .ok buf =>
      match w.failCode with
      | some c => (putRaw (putRaw t kb (List.replicate size 0)) kb buf,
          Except.error (Error.io (.otherKind c)))
      | none =>
        if size - w.bytes.length = 0 then
          (putRaw (putRaw t kb (List.replicate size 0)) kb buf, Except.ok ())
        else (putRaw (putRaw t kb (List.replicate size 0)) kb buf,
          Except.error (Error.io .unexpectedEof))) = _
  rw [reservedWrite]
  by_cases hs : size < w.bytes.length
  · rw [if_pos hs, if_pos hs]
  · rw [if_neg hs, if_neg hs]

/-- C5: `put_reserved` succeeds exactly when the writer fills the reserved
region of `size` bytes completely and reports no failure; an under-filled
region fails with the `UnexpectedEof` I/O error (reserved-write-
incomplete), an attempt to write more than `size` bytes fails with the
`WriteZero` I/O error, and after success `get` returns exactly the bytes
the writer wrote. -/
theorem claim_C5_put_reserved_exact_fill :
    ∀ (db : PolyDatabase) (txn : RoTxn) (kb : Bytes) (size : Nat)
      (w : WriterModel),
      envOk db txn = true →
      db.putReserved txn bytesCodec kb size w
        = .ok (PolyDatabase.putReservedCore bytesCodec txn.table kb size w)
      ∧ ((PolyDatabase.putReservedCore bytesCodec txn.table kb size w).2
            = .ok ()
          ↔ w.failCode = none ∧ w.bytes.length = size)
      ∧ (w.failCode = none → w.bytes.length < size →
          (PolyDatabase.putReservedCore bytesCodec txn.table kb size w).2
            = .error (.io .unexpectedEof))
      ∧ (size < w.bytes.length →
          (PolyDatabase.putReservedCore bytesCodec txn.table kb size w).2
            = .error (.io .writeZero))
      ∧ (w.failCode = none → w.bytes.length = size →
          PolyDatabase.getCore bytesCodec bytesCodec
            (PolyDatabase.putReservedCore bytesCodec txn.table kb size w).1 kb
            = .ok (some w.bytes)) := by
  intro db txn kb size w henv
  have hch := putReservedCore_bytes txn.table kb size w
  refine ⟨?_, ?_, ?_, ?_, ?_⟩
  · rw [PolyDatabase.putReserved, if_pos henv]
  · rw [hch]
    by_cases hs : size < w.bytes.length
    · rw [if_pos hs]
      constructor
      · intro h
        simp at h
      · rintro ⟨_, hl⟩
        omega
    · rw [if_neg hs]
      cases hf : w.failCode with
      | some c =>
        constructor
        · intro h
          simp at h
        · rintro ⟨hfn, _⟩
          exact Option.noConfusion hfn
      | none =>
        by_cases hz : size - w.bytes.length = 0
        · rw [if_pos hz]
          constructor
          · intro _
            exact ⟨rfl, by omega⟩
          · intro _
            rfl
        · rw [if_neg hz]
          constructor
          · intro h
            simp at h
          · rintro ⟨_, hl⟩
            omega
  · intro hf hlt
    rw [hch, if_neg (by omega), hf, if_neg (by omega)]
  · intro hs
    rw [hch, if_pos hs]
  · intro hf hl
    rw [hch, if_neg (by omega), hf, if_pos (by omega), getCore_bytes]
    show Except.ok (getRaw (putRaw (putRaw txn.table kb (List.replicate size 0))
      kb (w.bytes ++ List.replicate (size - w.bytes.length) 0)) kb) = _
    rw [getRaw_putRaw, if_pos rfl]
    have hz : size - w.bytes.length = 0 := by omega
    rw [hz]
    simp

/-- Witness for C5: reserving 5 bytes — a 4-byte writer fails with the
incomplete-write error, a 5-byte writer succeeds and `get` returns those
bytes, a 6-byte writer fails. -/
theorem claim_C5_put_reserved_exact_fill_witness :
    (PolyDatabase.putReservedCore bytesCodec [] ([5] : Bytes) 5
        ⟨[1, 2, 3, 4], none⟩).2 = .error (.io .unexpectedEof)
    ∧ (PolyDatabase.putReservedCore bytesCodec [] ([5] : Bytes) 5
        ⟨[1, 2, 3, 4, 5], none⟩).2 = .ok ()
    ∧ PolyDatabase.getCore bytesCodec bytesCodec
        (PolyDatabase.putReservedCore bytesCodec [] ([5] : Bytes) 5
          ⟨[1, 2, 3, 4, 5], none⟩).1 [5] = .ok (some [1, 2, 3, 4, 5])
    ∧ (PolyDatabase.putReservedCore bytesCodec [] ([5] : Bytes) 5
        ⟨[1, 2, 3, 4, 5, 6], none⟩).2 = .error (.io .writeZero) := by
  have h4 := claim_C5_put_reserved_exact_fill ⟨0, 0⟩ ⟨0, []⟩ [5] 5
    ⟨[1, 2, 3, 4], none⟩ (by decide)
  have h5 := claim_C5_put_reserved_exact_fill ⟨0, 0⟩ ⟨0, []⟩ [5] 5
    ⟨[1, 2, 3, 4, 5], none⟩ (by decide)
  have h6 := claim_C5_put_reserved_exact_fill ⟨0, 0⟩ ⟨0, []⟩ [5] 5
    ⟨[1, 2, 3, 4, 5, 6], none⟩ (by decide)
  exact ⟨h4.2.2.1 rfl (by decide), h5.2.1.mpr ⟨rfl, by decide⟩,
    h5.2.2.2.2 rfl (by decide), h6.2.2.2.1 (by decide)⟩

/-- C9: when the writer fails or leaves the reservation incomplete,
`put_reserved` reports an error, yet the table still contains an entry for
the key — the `MDB_RESERVE` insert ran before the writer and is not rolled
back. -/
theorem claim_C9_put_reserved_no_rollback :
    ∀ (db : PolyDatabase) (txn : RoTxn) (kb : Bytes) (size : Nat)
      (w : WriterModel),
      envOk db txn = true →
      (w.failCode ≠ none ∨ w.bytes.length ≠ size) →
      db.putReserved txn bytesCodec kb size w
        = .ok (PolyDatabase.putReservedCore bytesCodec txn.table kb size w)
      ∧ (∃ err, (PolyDatabase.putReservedCore bytesCodec txn.table kb
            size w).2 = .error err)
      ∧ (getRaw (PolyDatabase.putReservedCore bytesCodec txn.table kb
            size w).1 kb).isSome = true := by
  intro db txn kb size w henv hbad
  have hch := putReservedCore_bytes txn.table kb size w
  refine ⟨?_, ?_, ?_⟩
  · rw [PolyDatabase.putReserved, if_pos henv]
  · rw [hch]
    by_cases hs : size < w.bytes.length
    · rw [if_pos hs]
      exact ⟨.io .writeZero, rfl⟩
    · rw [if_neg hs]
      cases hf : w.failCode with
      | some c => exact ⟨.io (.otherKind c), rfl⟩
      | none =>
        have hz : ¬ (size - w.bytes.length = 0) := by
          rcases hbad with hb | hb
          · rw [hf] at hb
            exact absurd rfl hb
          · omega
        rw [if_neg hz]
        exact ⟨.io .unexpectedEof, rfl⟩
  · rw [hch]
    by_cases hs : size < w.bytes.length
    · rw [if_pos hs]
      show (getRaw (putRaw txn.table kb (List.replicate size 0)) kb).isSome = true
      rw [getRaw_putRaw, if_pos rfl]
      rfl
    · rw [if_neg hs]
      cases hf : w.failCode with
      | some c =>
        show (getRaw (putRaw (putRaw txn.table kb (List.replicate size 0)) kb
          (w.bytes ++ List.replicate (size - w.bytes.length) 0)) kb).isSome = true
        rw [getRaw_putRaw, if_pos rfl]
        rfl
      | none =>
        by_cases hz : size - w.bytes.length = 0
        · rw [if_pos hz]
          show (getRaw (putRaw (putRaw txn.table kb (List.replicate size 0)) kb
            (w.bytes ++ List.replicate (size - w.bytes.length) 0)) kb).isSome = true
          rw [getRaw_putRaw, if_pos rfl]
          rfl
        · rw [if_neg hz]
          show (getRaw (putRaw (putRaw txn.table kb (List.replicate size 0)) kb
            (w.bytes ++ List.replicate (size - w.bytes.length) 0)) kb).isSome = true
          rw [getRaw_putRaw, if_pos rfl]
          rfl

/-- Witness for C9: a 4-byte writer against a 5-byte reservation errors,
yet the key is present afterwards. -/
theorem claim_C9_put_reserved_no_rollback_witness :
    (∃ err, (PolyDatabase.putReservedCore bytesCodec [] ([5] : Bytes) 5
        ⟨[1, 2, 3, 4], none⟩).2 = .error err)
    ∧ (getRaw (PolyDatabase.putReservedCore bytesCodec [] ([5] : Bytes) 5
        ⟨[1, 2, 3, 4], none⟩).1 [5]).isSome = true := by
  have h := claim_C9_put_reserved_no_rollback ⟨0, 0⟩ ⟨0, []⟩ [5] 5
    ⟨[1, 2, 3, 4], none⟩ (by decide) (Or.inr (by decide))
  exact ⟨h.2.1, h.2.2⟩

/-- C6: an `append` whose encoded key is not strictly greater than every
key already in the table fails with the engine's key-order violation and
leaves the table exactly as it was. -/
theorem claim_C6_append_order :
    ∀ (db : PolyDatabase) (txn : RoTxn) (kb vb : Bytes),
      envOk db txn = true → SortedTable txn.table →
      (∃ e ∈ txn.table, blt e.1 kb = false) →
      db.append txn bytesCodec bytesCodec kb vb
        = .ok (txn.table, .error (.mdb .keyExist)) := by
  intro db txn kb vb henv hsort hex
  obtain ⟨e, he, hk⟩ := hex
  rw [PolyDatabase.append, if_pos henv]
  show Checked.ok
      (match appendRaw txn.table kb vb with
        | .ok t' => (t', Except.ok ())
        | .error e => (txn.table, Except.error (Error.mdb e))) = _
  rw [appendRaw_fail hsort he hk]

/-- Witness for C6: appending keys `[10], [20], [15]` in that order — the
first two succeed, the third fails with the key-order violation and the
table still holds exactly `{10, 20}`. -/
theorem claim_C6_append_order_witness :
    PolyDatabase.append ⟨4, 0⟩ ⟨4, []⟩ bytesCodec bytesCodec [10] [0]
      = .ok ([([10], [0])], .ok ())
    ∧ PolyDatabase.append ⟨4, 0⟩ ⟨4, [([10], [0])]⟩ bytesCodec bytesCodec
        [20] [0] = .ok ([([10], [0]), ([20], [0])], .ok ())
    ∧ PolyDatabase.append ⟨4, 0⟩ ⟨4, [([10], [0]), ([20], [0])]⟩ bytesCodec
        bytesCodec [15] [0]
      = .ok ([([10], [0]), ([20], [0])], .error (.mdb .keyExist)) := by
  refine ⟨rfl, rfl, ?_⟩
  exact claim_C6_append_order ⟨4, 0⟩ ⟨4, [([10], [0]), ([20], [0])]⟩ [15] [0]
    (by decide) (by decide) ⟨([20], [0]), by decide, by decide⟩

/-- C7: every public operation of the handle checks the environment
identity of the handle against that of the transaction first, and fails at
assertion level — independently of the table state — when they differ. -/
theorem claim_C7_env_check_every_op :
    ∀ (db : PolyDatabase) (txn : RoTxn) (k v p : Bytes) (size : Nat)
      (w : WriterModel) (lo hi : TypedBound Bytes),
      db.env_ident ≠ txn.env_ident →
      db.get txn bytesCodec bytesCodec k = .assertFail
      ∧ db.getLowerThan txn bytesCodec bytesCodec k = .assertFail
      ∧ db.getLowerThanOrEqualTo txn bytesCodec bytesCodec k = .assertFail
      ∧ db.getGreaterThan txn bytesCodec bytesCodec k = .assertFail
      ∧ db.getGreaterThanOrEqualTo txn bytesCodec bytesCodec k = .assertFail
      ∧ db.first txn bytesCodec bytesCodec = .assertFail
      ∧ db.last txn bytesCodec bytesCodec = .assertFail
      ∧ db.len txn = .assertFail
      ∧ db.isEmpty txn = .assertFail
      ∧ db.iter txn = .assertFail
      ∧ db.iterMut txn = .assertFail
      ∧ db.revIter txn = .assertFail
      ∧ db.revIterMut txn = .assertFail
      ∧ db.range txn bytesCodec lo hi = .assertFail
      ∧ db.rangeMut txn bytesCodec lo hi = .assertFail
      ∧ db.revRange txn bytesCodec lo hi = .assertFail
      ∧ db.revRangeMut txn bytesCodec lo hi = .assertFail
      ∧ db.prefixIter txn bytesCodec p = .assertFail
      ∧ db.prefixIterMut txn bytesCodec p = .assertFail
      ∧ db.revPrefixIter txn bytesCodec p = .assertFail
      ∧ db.revPrefixIterMut txn bytesCodec p = .assertFail
      ∧ db.put txn bytesCodec bytesCodec k v = .assertFail
      ∧ db.putReserved txn bytesCodec k size w = .assertFail
      ∧ db.append txn bytesCodec bytesCodec k v = .assertFail
      ∧ db.delete txn bytesCodec k = .assertFail
      ∧ db.deleteRange txn bytesCodec lo hi = .assertFail
      ∧ db.clear txn = .assertFail := by
  intro db txn k v p size w lo hi hne
  have hcond : ¬ (envOk db txn = true) := by
    simp [envOk]
    exact hne
  refine ⟨?_, ?_, ?_, ?_, ?_, ?_, ?_, ?_, ?_, ?_, ?_, ?_, ?_, ?_, ?_, ?_,
    ?_, ?_, ?_, ?_, ?_, ?_, ?_, ?_, ?_, ?_, ?_⟩
  · rw [PolyDatabase.get, if_neg hcond]
  · rw [PolyDatabase.getLowerThan, if_neg hcond]
  · rw [PolyDatabase.getLowerThanOrEqualTo, if_neg hcond]
  · rw [PolyDatabase.getGreaterThan, if_neg hcond]
  · rw [PolyDatabase.getGreaterThanOrEqualTo, if_neg hcond]
  · rw [PolyDatabase.first, if_neg hcond]
  · rw [PolyDatabase.last, if_neg hcond]
  · rw [PolyDatabase.len, if_neg hcond]
  · rw [PolyDatabase.isEmpty, if_neg hcond]
  · rw [PolyDatabase.iter, if_neg hcond]
  · rw [PolyDatabase.iterMut, if_neg hcond]
  · rw [PolyDatabase.revIter, if_neg hcond]
  · rw [PolyDatabase.revIterMut, if_neg hcond]
  · rw [PolyDatabase.range, if_neg hcond]
  · rw [PolyDatabase.rangeMut, if_neg hcond]
  · rw [PolyDatabase.revRange, if_neg hcond]
  · rw [PolyDatabase.revRangeMut, if_neg hcond]
  · rw [PolyDatabase.prefixIter, if_neg hcond]
  · rw [PolyDatabase.prefixIterMut, if_neg hcond]
  · rw [PolyDatabase.revPrefixIter, if_neg hcond]
  · rw [PolyDatabase.revPrefixIterMut, if_neg hcond]
  · rw [PolyDatabase.put, if_neg hcond]
  · rw [PolyDatabase.putReserved, if_neg hcond]
  · rw [PolyDatabase.append, if_neg hcond]
  · rw [PolyDatabase.delete, if_neg hcond]
  · rw [PolyDatabase.deleteRange, if_neg hcond]
  · rw [PolyDatabase.clear, if_neg hcond]

/-- Witness for C7: a handle from environment 0 used with a transaction of
environment 1. -/
theorem claim_C7_env_check_every_op_witness :
    PolyDatabase.get ⟨0, 0⟩ ⟨1, [([1], [1])]⟩ bytesCodec bytesCodec [1]
      = .assertFail
    ∧ PolyDatabase.clear ⟨0, 0⟩ ⟨1, [([1], [1])]⟩ = .assertFail := by
  have h := claim_C7_env_check_every_op ⟨0, 0⟩ ⟨1, [([1], [1])]⟩ [1] [1] [1] 0
    ⟨[], none⟩ .unbounded .unbounded (by decide)
  exact ⟨h.1,
    h.2.2.2.2.2.2.2.2.2.2.2.2.2.2.2.2.2.2.2.2.2.2.2.2.2.2⟩

/-- C8 counterexample: with a single-byte key codec and an entry whose key
`[5, 5]` does not decode, `delete_range` over the full interval returns
`Ok 1` — the decode failure the iterator yields while advancing is
discarded, the entry deleted and counted, no error reaches the caller. -/
theorem claim_C8_counterexample_decode_discarded :
    u8Codec.decode [5, 5] = none
    ∧ PolyDatabase.deleteRange ⟨0, 0⟩ ⟨0, [([5, 5], [7])]⟩ u8Codec
        .unbounded .unbounded = .ok ([], .ok 1) := by
  constructor
  · rfl
  · have h : PolyDatabase.deleteRangeCore u8Codec [([5, 5], [7])]
        (.unbounded) (.unbounded) = ([], .ok 1) := by
      rw [@deleteRangeCore_eq Nat u8Codec [([5, 5], [7])] .unbounded
        .unbounded .unbounded .unbounded (by decide) rfl rfl]
      rfl
    rw [PolyDatabase.deleteRange, if_pos (by decide), h]

/-- C8 (amended): errors raised by `del_current` would propagate, but an
error the iterator yields while advancing — a key-decode failure — is
discarded by the `is_some()` presence check: the entry is still deleted and
counted, and `delete_range` returns `Ok` with the full in-interval count
for every key codec whose bound encoding succeeds. -/
theorem claim_C8_amended_iterator_errors_discarded :
    ∀ (K : Type) (kc : Codec K) (db : PolyDatabase) (txn : RoTxn)
      (lo hi : TypedBound K) (lob hib : RangeBound),
      envOk db txn = true → SortedTable txn.table →
      encodeBound kc lo = .ok lob → encodeBound kc hi = .ok hib →
      db.deleteRange txn kc lo hi
        = .ok (txn.table.filter (fun e => !(inBounds lob hib e.1)),
            .ok (txn.table.filter (fun e => inBounds lob hib e.1)).length) := by
  intro K kc db txn lo hi lob hib henv hsort hlo hhi
  rw [PolyDatabase.deleteRange, if_pos henv, deleteRangeCore_eq kc hsort hlo hhi]

/-- Witness for the amended C8 on a table holding a decodable and an
undecodable key. -/
theorem claim_C8_amended_iterator_errors_discarded_witness :
    PolyDatabase.deleteRange ⟨0, 0⟩ ⟨0, [([5, 5], [7]), ([9], [1])]⟩ u8Codec
        .unbounded .unbounded = .ok ([], .ok 2) := by
  have h := claim_C8_amended_iterator_errors_discarded Nat u8Codec ⟨0, 0⟩
    ⟨0, [([5, 5], [7]), ([9], [1])]⟩ .unbounded .unbounded .unbounded
    .unbounded (by decide) (by decide) rfl rfl
  rw [h]
  rfl

/-- C10: `is_empty` answers exactly whether `first` finds nothing — true
iff `first` returns `None` — and, since it decodes nothing, it always
returns a boolean and never a decoding error. -/
theorem claim_C10_is_empty_iff_first_none :
    ∀ (db : PolyDatabase) (txn : RoTxn) (K V : Type) (kc : Codec K)
      (dc : Codec V),
      envOk db txn = true →
      db.isEmpty txn = .ok (.ok txn.table.isEmpty)
      ∧ (db.isEmpty txn = .ok (.ok true)
          ↔ db.first txn kc dc = .ok (.ok none)) := by
  intro db txn K V kc dc henv
  have h1 : db.isEmpty txn = .ok (PolyDatabase.isEmptyCore txn.table) := by
    rw [PolyDatabase.isEmpty, if_pos henv]
  have hcore : PolyDatabase.isEmptyCore txn.table = .ok txn.table.isEmpty := by
    cases txn.table <;> rfl
  have hiff := firstCore_ok_none_iff kc dc txn.table
  refine ⟨by rw [h1, hcore], ?_⟩
  rw [h1, hcore, PolyDatabase.first, if_pos henv]
  constructor
  · intro h
    have hb : txn.table.isEmpty = true := by
      simpa using h
    have htbl : txn.table = [] := by
      cases htt : txn.table with
      | nil => rfl
      | cons e rest => rw [htt] at hb; simp at hb
    rw [hiff.mpr htbl]
  · intro h
    have hfc : PolyDatabase.firstCore kc dc txn.table = .ok none := by
      simpa using h
    rw [hiff.mp hfc]
    rfl

/-- Witness for C10 on an empty and a nonempty table. -/
theorem claim_C10_is_empty_iff_first_none_witness :
    PolyDatabase.isEmpty ⟨3, 1⟩ ⟨3, []⟩ = .ok (.ok true)
    ∧ PolyDatabase.first ⟨3, 1⟩ ⟨3, ([] : Table)⟩ bytesCodec bytesCodec
        = .ok (.ok none)
    ∧ PolyDatabase.isEmpty ⟨3, 1⟩ ⟨3, [([1], [2])]⟩ = .ok (.ok false) := by
  have he := claim_C10_is_empty_iff_first_none ⟨3, 1⟩ ⟨3, []⟩ Bytes Bytes
    bytesCodec bytesCodec (by decide)
  have hn := claim_C10_is_empty_iff_first_none ⟨3, 1⟩ ⟨3, [([1], [2])]⟩
    Bytes Bytes bytesCodec bytesCodec (by decide)
  refine ⟨by rw [he.1]; rfl, he.2.mp (by rw [he.1]; rfl), by rw [hn.1]; rfl⟩

end Heed
